import Mathlib

/-!
# A verification development for the `rtos` scheduler drafts

The repository holds two drafts of one C program (`week-3-code.c`, `week-7.c`).
The task system (`task_enqueue`, `task_dequeue`, `rtos_task_create`,
`rtos_task_delete`, `rtos_schedule`, `rtos_init`, `rtos_tick_handler`) is
textually the same in both; the interrupt ring and the time-slice loop exist in
`week-7.c` only.

The embedding is at pointer level.  A `Task*` is an `Option Nat` (`none` is
`NULL`), the C heap is a list of cells addressed by position, and every function
that dereferences a pointer returns `Except Err _`: `Err.fault` stands for
undefined behaviour of the C program (dereferencing `NULL` or released storage,
releasing storage twice), `Err.fuel` for a loop that did not finish within the
given number of iterations.
-/

namespace Rtos

/-! ## Data model -/

/-- The enumeration `TaskState`. -/
inductive TaskState where
  | TASK_READY
  | TASK_RUNNING
  | TASK_BLOCKED
  | TASK_SUSPENDED
  deriving DecidableEq

/-- The record `struct _Task`.  `name`, `func` and `arg` are pointers and are kept as
addresses; `stack` is never read or written by the code and is left out;
`priority` is a `uint32_t`, which the code only copies and compares. -/
structure Task where
  name : Nat
  func : Nat
  arg : Nat
  state : TaskState
  priority : Nat
  next : Option Nat
  deriving DecidableEq

/-- The record `RTOS` (the global `rtos`). -/
structure RTOS where
  current_task : Option Nat
  ready_list : Option Nat
  tick : Nat
  deriving DecidableEq

/-- The heap: cell `a` is `some t` while the record at address `a` is allocated and
`none` once it has been released. -/
abbrev Heap := List (Option Task)

/-- How a run of the C code can fail to produce a result. -/
inductive Err where
  | fault
  | fuel
  deriving DecidableEq

/-- The whole machine state: the heap, the global `rtos`, and `ran`, the addresses of
the records whose body `func(arg)` has been invoked so far, oldest first. -/
structure World where
  mem : Heap
  rtos : RTOS
  ran : List Nat
  deriving DecidableEq

/-- Reading through a `Task*`: a fault unless the address holds a live record. -/
def load (h : Heap) (a : Nat) : Except Err Task :=
  match h[a]? with
  | some (some t) => .ok t
  | _ => .error .fault

/-- Writing a record through a `Task*` that has been read successfully. -/
def store (h : Heap) (a : Nat) (t : Task) : Heap :=
  h.set a (some t)

/-- The call `rtos_free(ptr)` for a non-null `ptr`: the cell is released; releasing
a cell that is not allocated is a fault. -/
def rtos_free (h : Heap) (a : Nat) : Except Err Heap :=
  match h[a]? with
  | some (some _) => .ok (h.set a none)
  | _ => .error .fault

/-! ## Ready-queue operations -/

/-- The `while` loop of `task_enqueue`: starting from `current`, advance while
`current->next` is non-null and `current->next->priority >= task->priority`; the
result is the final value of `current`. -/
def enqueue_walk : Nat → Heap → Nat → Nat → Except Err Nat
  | 0, _, _, _ => .error .fuel
  | fuel + 1, h, current, task =>
    match load h current with
    | .error e => .error e
    | .ok c =>
      match c.next with
      | none => .ok current
      | some n =>
        match load h n with
        | .error e => .error e
        | .ok nt =>
          match load h task with
          | .error e => .error e
          | .ok t =>
            if nt.priority ≥ t.priority then enqueue_walk fuel h n task else .ok current

/-- The function `task_enqueue(Task** head, Task* task)`, with `*head` passed in
and the new `*head` returned next to the new heap.  `task` is non-null at every
call site. -/
def task_enqueue (fuel : Nat) (h : Heap) (head : Option Nat) (task : Nat) :
    Except Err (Heap × Option Nat) :=
  match head with
  | none => .ok (h, some task)
  | some first =>
    match enqueue_walk fuel h first task with
    | .error e => .error e
    | .ok current =>
      -- task->next = current->next;
      match load h current, load h task with
      | .ok c, .ok t =>
        let h1 := store h task { t with next := c.next }
        -- current->next = task;
        match load h1 current with
        | .ok c1 => .ok (store h1 current { c1 with next := some task }, some first)
        | .error e => .error e
      | .error e, _ => .error e
      | _, .error e => .error e

/-- The function `task_dequeue(Task** head)`: the new heap, the new `*head` and the
returned pointer. -/
def task_dequeue (h : Heap) (head : Option Nat) :
    Except Err (Heap × Option Nat × Option Nat) :=
  match head with
  | none => .ok (h, none, none)
  | some a =>
    match load h a with
    | .error e => .error e
    | .ok t => .ok (store h a { t with next := none }, t.next, some a)

/-! ## Task system -/

/-- The function `rtos_init`. -/
def rtos_init (w : World) : World :=
  { w with rtos := { current_task := none, ready_list := none, tick := 0 } }

/-- The state of the program when `main` starts: nothing allocated, the global
`rtos` zero-initialised, no body run. -/
def boot : World :=
  { mem := [], rtos := { current_task := none, ready_list := none, tick := 0 }, ran := [] }

/-- The function `rtos_task_create`; the second component is the returned handle.
`rtos_malloc` is taken to succeed and to return storage that was never handed
out before (the next unused address); after `memset` and the field stores the
record has `next = NULL` and state `TASK_READY`. -/
def rtos_task_create (fuel : Nat) (w : World) (name func arg priority : Nat) :
    Except Err (World × Nat) :=
  let task := w.mem.length
  let h := w.mem ++ [some { name := name, func := func, arg := arg,
                            state := .TASK_READY, priority := priority, next := none }]
  match task_enqueue fuel h w.rtos.ready_list task with
  | .error e => .error e
  | .ok (h1, head) => .ok ({ w with mem := h1, rtos := { w.rtos with ready_list := head } }, task)

/-- The position `Task** current` inside the loop of `rtos_task_delete`: either
`&rtos.ready_list` or `&a->next` for a record `a`. -/
inductive Loc where
  | head
  | nextOf (a : Nat)
  deriving DecidableEq

/-- Reading `*current` in the loop of `rtos_task_delete`. -/
def read_loc (h : Heap) (ready : Option Nat) : Loc → Except Err (Option Nat)
  | .head => .ok ready
  | .nextOf a =>
    match load h a with
    | .ok t => .ok t.next
    | .error e => .error e

/-- The assignment `*current = v` in the loop of `rtos_task_delete`: the new heap and
the new `rtos.ready_list`. -/
def write_loc (h : Heap) (ready : Option Nat) (v : Option Nat) :
    Loc → Except Err (Heap × Option Nat)
  | .head => .ok (h, v)
  | .nextOf a =>
    match load h a with
    | .ok t => .ok (store h a { t with next := v }, ready)
    | .error e => .error e

/-- The loop of `rtos_task_delete`: the heap and `rtos.ready_list` after the loop. -/
def delete_walk : Nat → Heap → Option Nat → Loc → Nat → Except Err (Heap × Option Nat)
  | 0, _, _, _, _ => .error .fuel
  | fuel + 1, h, ready, current, task =>
    match read_loc h ready current with
    | .error e => .error e
    | .ok none => .ok (h, ready)
    | .ok (some p) =>
      if p = task then
        -- *current = task->next; break;
        match load h task with
        | .error e => .error e
        | .ok t => write_loc h ready t.next current
      else
        -- current = &(*current)->next;
        delete_walk fuel h ready (.nextOf p) task

/-- The function `rtos_task_delete`. -/
def rtos_task_delete (fuel : Nat) (w : World) (task : Option Nat) : Except Err World :=
  match task with
  | none => .ok w
  | some t =>
    match delete_walk fuel w.mem w.rtos.ready_list .head t with
    | .error e => .error e
    | .ok (h, ready) =>
      match rtos_free h t with
      | .error e => .error e
      | .ok h1 => .ok { w with mem := h1, rtos := { w.rtos with ready_list := ready } }

/-- The part of `rtos_schedule` guarded by `if (rtos.current_task)`: the current
task gets state `TASK_READY` and is enqueued. -/
def requeue_current (fuel : Nat) (h : Heap) (ready : Option Nat) (cur : Option Nat) :
    Except Err (Heap × Option Nat) :=
  match cur with
  | none => .ok (h, ready)
  | some c =>
    match load h c with
    | .error e => .error e
    | .ok ct => task_enqueue fuel (store h c { ct with state := .TASK_READY }) ready c

/-- The function `rtos_schedule`.  The call `next_task->func(next_task->arg)` is
recorded in `ran`; the body is taken to return to its caller without touching
the scheduler. -/
def rtos_schedule (fuel : Nat) (w : World) : Except Err World :=
  match task_dequeue w.mem w.rtos.ready_list with
  | .error e => .error e
  | .ok (_, _, none) => .ok w
  | .ok (h1, ready1, some next_task) =>
    match requeue_current fuel h1 ready1 w.rtos.current_task with
    | .error e => .error e
    | .ok (h2, ready2) =>
      match load h2 next_task with
      | .error e => .error e
      | .ok nt =>
        .ok { mem := store h2 next_task { nt with state := .TASK_RUNNING },
              rtos := { current_task := some next_task, ready_list := ready2,
                        tick := w.rtos.tick },
              ran := w.ran ++ [next_task] }

/-- The function `rtos_tick_handler`; `rtos.tick` is a `uint32_t`. -/
def rtos_tick_handler (fuel : Nat) (w : World) : Except Err World :=
  let w1 : World := { w with rtos := { w.rtos with tick := (w.rtos.tick + 1) % 2 ^ 32 } }
  match w1.rtos.current_task with
  | none => .ok w1
  | some c =>
    match load w1.mem c with
    | .error e => .error e
    | .ok ct =>
      match task_enqueue fuel (store w1.mem c { ct with state := .TASK_READY })
              w1.rtos.ready_list c with
      | .error e => .error e
      | .ok (h, ready) =>
        rtos_schedule fuel { w1 with mem := h, rtos := { w1.rtos with ready_list := ready } }

/-- The dispatch step in the order the specification words it: the current task is
made ready and re-enqueued first, and only then is the head of the ready queue
popped and run. -/
def schedule_requeue_first (fuel : Nat) (w : World) : Except Err World :=
  match requeue_current fuel w.mem w.rtos.ready_list w.rtos.current_task with
  | .error e => .error e
  | .ok (h1, ready1) =>
    match task_dequeue h1 ready1 with
    | .error e => .error e
    | .ok (_, _, none) => .ok w
    | .ok (h2, ready2, some next_task) =>
      match load h2 next_task with
      | .error e => .error e
      | .ok nt =>
        .ok { mem := store h2 next_task { nt with state := .TASK_RUNNING },
              rtos := { current_task := some next_task, ready_list := ready2,
                        tick := w.rtos.tick },
              ran := w.ran ++ [next_task] }

/-- A run of `rtos_task_create` calls, one per listed priority (name, code address
and argument are immaterial to the queue and are 0); the handles come back in
creation order. -/
def create_tasks (fuel : Nat) : World → List Nat → Except Err (World × List Nat)
  | w, [] => .ok (w, [])
  | w, p :: ps =>
    match rtos_task_create fuel w 0 0 0 p with
    | .error e => .error e
    | .ok (w1, t) =>
      match create_tasks fuel w1 ps with
      | .error e => .error e
      | .ok (w2, ts) => .ok (w2, t :: ts)

/-- The loop of `main`: `n` successive calls of `rtos_schedule`. -/
def schedule_times (fuel : Nat) : Nat → World → Except Err World
  | 0, w => .ok w
  | n + 1, w =>
    match rtos_schedule fuel w with
    | .error e => .error e
    | .ok w1 => schedule_times fuel n w1

/-- Successive `task_dequeue` calls on `rtos.ready_list`: the records returned by the
first `n` calls, in order (a call on the empty queue returns `NULL` and adds
nothing). -/
def dequeue_times : Nat → Heap → Option Nat → Except Err (List Nat)
  | 0, _, _ => .ok []
  | n + 1, h, head =>
    match task_dequeue h head with
    | .error e => .error e
    | .ok (h1, head1, none) => dequeue_times n h1 head1
    | .ok (h1, head1, some t) =>
      match dequeue_times n h1 head1 with
      | .error e => .error e
      | .ok ts => .ok (t :: ts)

/-! ## The ready queue read off the heap -/

/-- The test `chain h p l` holds when following `next` from pointer `p` passes through
exactly the records `l`, each of them live, and then reaches `NULL`. -/
def chain (h : Heap) : Option Nat → List Nat → Bool
  | none, [] => true
  | some a, b :: l =>
    decide (a = b) &&
      (match load h a with
       | .ok t => chain h t.next l
       | .error _ => false)
  | _, _ => false

/-- The priority stored in the record at address `a` (0 when the cell is not live). -/
def prio (h : Heap) (a : Nat) : Nat :=
  match load h a with
  | .ok t => t.priority
  | .error _ => 0

/-- The state stored in the record at address `a`, if the cell is live. -/
def state_of (h : Heap) (a : Nat) : Option TaskState :=
  match load h a with
  | .ok t => some t.state
  | .error _ => none

/-- The position at which a record `t` of priority `p` lands among the successors `r`
of the head: behind the longest run of leading records whose priority is at
least `p`. -/
def insert_behind (key : Nat → Nat) (p : Nat) (t : Nat) : List Nat → List Nat
  | [] => [t]
  | x :: r => if key x ≥ p then x :: insert_behind key p t r else t :: x :: r

/-- The queue after enqueueing `t`: an empty queue becomes `[t]`, otherwise the head
stays and `t` is placed among its successors. -/
def enqueued (key : Nat → Nat) (p : Nat) (t : Nat) : List Nat → List Nat
  | [] => [t]
  | a :: r => a :: insert_behind key p t r

/-! ## Interrupt ring -/

/-- The record `TaskInterruptReq`; the two pointers are kept as addresses. -/
structure TaskInterruptReq where
  type : Int
  handler_ptr : Nat
  user_ctx : Nat
  deriving DecidableEq

/-- The record `UserInterruptRing`: `head`, `tail` and `mask` are `uint32_t`.
`requests` is the slot array the code indexes as `ring->requests[...]`; its
declaration is commented out in the struct, so the code fixes no extent for it
and it is taken as a map from slot index to entry. -/
structure UserInterruptRing where
  head : Nat
  tail : Nat
  mask : Nat
  requests : Nat → TaskInterruptReq

/-- The function `RegisterInterruptHandler(irq, handler, ctx)`, which returns `void`.
The code obtains its ring from a placeholder `malloc`; here the ring is passed
in and the updated ring is returned.  The store to `head` is commented out in
the code. -/
def RegisterInterruptHandler (ring : UserInterruptRing) (_irq : Int) (handler ctx : Nat) :
    UserInterruptRing :=
  { ring with
    requests := fun j =>
      if j = ring.head &&& ring.mask then
        { type := 1, handler_ptr := handler, user_ctx := ctx }
      else ring.requests j }

/-- The `for` loop of `KernelInterruptWorker`.  The bound `head - tail` is unsigned
32-bit arithmetic on the local copies and is evaluated again before every
iteration; the `int` counter `i` is compared after conversion to unsigned, so it
is kept as its unsigned image (an increment past `INT_MAX`, which only a bound
of `2^32 - 1` reaches, is taken to wrap).  The body reads
`requests[tail & mask]` and increments the local `tail`.  The result is the
final local `tail` and the slot indices read, in order. -/
def drain_loop : Nat → Nat → Nat → Nat → Nat → List Nat → Except Err (Nat × List Nat)
  | 0, _, _, _, _, _ => .error .fuel
  | fuel + 1, mask, head, i, tail, slots =>
    if i < (head + 2 ^ 32 - tail) % 2 ^ 32 then
      drain_loop fuel mask head ((i + 1) % 2 ^ 32) ((tail + 1) % 2 ^ 32)
        (slots ++ [tail &&& mask])
    else .ok (tail, slots)

/-- One pass of the `while (1)` body of `KernelInterruptWorker` over the request
ring: the ring with `tail` stored back, and the slot indices read.  (The
submission of I/O requests and the response ring are commented out in the
code.) -/
def KernelInterruptWorker_batch (fuel : Nat) (req_ring : UserInterruptRing) :
    Except Err (UserInterruptRing × List Nat) :=
  match drain_loop fuel req_ring.mask req_ring.head 0 req_ring.tail [] with
  | .error e => .error e
  | .ok (tail, slots) => .ok ({ req_ring with tail := tail }, slots)

/-- The record at which the walk of `task_enqueue` stops when it starts at `first`,
whose successors are `r`, and the new record has priority `p`. -/
def stop_at (key : Nat → Nat) (p : Nat) : Nat → List Nat → Nat
  | first, [] => first
  | first, x :: r => if key x ≥ p then stop_at key p x r else first

/-! ## Well-formed scheduler states -/

/-- A scheduler state is well formed with ready queue `q` when `rtos.ready_list`
heads a chain through exactly the records `q`, and the current task, if there is
one, is a live record outside `q` whose `next` link is `NULL` (as `task_dequeue`
leaves it). -/
def well_formed (w : World) (q : List Nat) : Prop :=
  chain w.mem w.rtos.ready_list q = true ∧
    ∀ c, w.rtos.current_task = some c → c ∉ q ∧ ∃ t, load w.mem c = .ok t ∧ t.next = none

/-- The ready-queue invariant of the specification, for ready queue `q`: no record
appears twice, every record of the queue has state `TASK_READY`, and the current
task is not a member of the queue. -/
def ready_queue_inv (w : World) (q : List Nat) : Prop :=
  chain w.mem w.rtos.ready_list q = true ∧ q.Nodup ∧
    (∀ a ∈ q, state_of w.mem a = some .TASK_READY) ∧
    ∀ c, w.rtos.current_task = some c → c ∉ q

/-- The ready queue after `rtos_schedule` has popped its head: the remainder `r`, with
the previous current task, if any, enqueued into it. -/
def requeued (key : Nat → Nat) (cur : Option Nat) (r : List Nat) : List Nat :=
  match cur with
  | none => r
  | some c => enqueued key (key c) c r

/-- A state with two live records: record 0 alone forms the ready queue, record 1
is linked nowhere, and there is no current task. -/
def unlinked_example : World :=
  { mem := [some { name := 0, func := 0, arg := 0, state := .TASK_READY, priority := 1,
                   next := none },
            some { name := 0, func := 0, arg := 0, state := .TASK_READY, priority := 2,
                   next := none }],
    rtos := { current_task := none, ready_list := some 0, tick := 5 },
    ran := [] }

/-- A state in the middle of a run: record 0 (priority 1) is the running current
task, and the ready queue is record 1 (priority 4) followed by record 2
(priority 1). -/
def requeue_example : World :=
  { mem := [some { name := 0, func := 0, arg := 0, state := .TASK_RUNNING, priority := 1,
                   next := none },
            some { name := 0, func := 0, arg := 0, state := .TASK_READY, priority := 4,
                   next := some 2 },
            some { name := 0, func := 0, arg := 0, state := .TASK_READY, priority := 1,
                   next := none }],
    rtos := { current_task := some 0, ready_list := some 1, tick := 0 },
    ran := [0] }

/-- A request ring of capacity 4 (`mask = 3`) holding two published entries. -/
def two_pending : UserInterruptRing :=
  { head := 2, tail := 0, mask := 3,
    requests := fun _ => { type := 2, handler_ptr := 0, user_ctx := 0 } }

/-- A request ring of capacity 4 (`mask = 3`) that is full: four I/O requests are
published and none is consumed. -/
def full_ring : UserInterruptRing :=
  { head := 4, tail := 0, mask := 3,
    requests := fun _ => { type := 2, handler_ptr := 0, user_ctx := 0 } }

/-! ## Time slices -/

/-- The constant `MAX_TASKS`, the extent of the array `TaskList`. -/
def MAX_TASKS : Nat := 10

/-- The record `Task_t` without its function pointer `run`, which the functions below
take as an argument; all fields are `int`. -/
structure Task_t where
  priority : Int
  period : Int
  deadline : Int
  timeSlice : Int
  remainingTimeSlice : Int
  state : Int
  remainingTime : Int
  deriving DecidableEq

/-- The `while` loop of `ExecuteTaskWithTimeSlice`.  `run` is the effect of the task
body on the task record, which the loop condition reads again on every
iteration; `calls` counts the invocations of the body.  `time_used` is an `int`
that never exceeds the budget it is compared with, so its increment is plain
integer addition.  The result is the record, `time_used` and the number of
invocations when the loop ends. -/
def execute_loop (run : Task_t → Task_t) : Nat → Task_t → Int → Nat →
    Except Err (Task_t × Int × Nat)
  | 0, _, _, _ => .error .fuel
  | fuel + 1, task, time_used, calls =>
    if time_used < task.remainingTimeSlice then
      execute_loop run fuel (run task) (time_used + 1) (calls + 1)
    else .ok (task, time_used, calls)

/-- The function `ExecuteTaskWithTimeSlice`: the task record after the call and the
number of times the body was invoked. -/
def ExecuteTaskWithTimeSlice (run : Task_t → Task_t) (fuel : Nat) (task : Task_t) :
    Except Err (Task_t × Nat) :=
  match execute_loop run fuel task 0 0 with
  | .error e => .error e
  | .ok (t, time_used, calls) =>
    .ok ({ t with remainingTimeSlice := t.remainingTimeSlice - time_used }, calls)

/-- A task record with a budget of three ticks. -/
def three_ticks : Task_t :=
  { priority := 1, period := 0, deadline := 0, timeSlice := 3, remainingTimeSlice := 3,
    state := 0, remainingTime := 0 }

/-- A request ring of capacity 8 (`mask = 7`) holding five published entries, the
first of them in slot 6. -/
def five_pending : UserInterruptRing :=
  { head := 11, tail := 6, mask := 7,
    requests := fun _ => { type := 2, handler_ptr := 0, user_ctx := 0 } }

/-- A state whose ready queue is record 1 alone and whose current task, record 0,
is live but still has its `next` link pointing at record 1. -/
def stale_link_example : World :=
  { mem := [some { name := 0, func := 0, arg := 0, state := .TASK_RUNNING, priority := 1,
                   next := some 1 },
            some { name := 0, func := 0, arg := 0, state := .TASK_READY, priority := 1,
                   next := none }],
    rtos := { current_task := some 0, ready_list := some 1, tick := 0 },
    ran := [0] }

/-! ## Memory lemmas -/

theorem load_lt {h : Heap} {a : Nat} {t : Task} (hl : load h a = .ok t) : a < h.length := by
  unfold load at hl
  by_contra hc
  rw [List.getElem?_eq_none (by omega)] at hl
  simp at hl

theorem load_eq_ok {h : Heap} {a : Nat} {t : Task} : load h a = .ok t ↔ h[a]? = some (some t) := by
  unfold load
  split
  · rename_i t' heq
    simp [heq]
  · rename_i hne
    constructor
    · intro hc; cases hc
    · intro hc; exact absurd hc (hne t)

theorem load_store_same {h : Heap} {a : Nat} (t : Task) (ha : a < h.length) :
    load (store h a t) a = .ok t := by
  rw [load_eq_ok]; simp [store, ha]

theorem load_store_ne {h : Heap} {a b : Nat} (t : Task) (hab : a ≠ b) :
    load (store h a t) b = load h b := by
  simp [load, store, List.getElem?_set_ne hab]

theorem load_set_none_ne {h : Heap} {a b : Nat} (hab : a ≠ b) :
    load (h.set a none) b = load h b := by
  simp [load, List.getElem?_set_ne hab]

theorem load_append {h : Heap} {a : Nat} {t : Task} (x : Option Task) (hl : load h a = .ok t) :
    load (h ++ [x]) a = .ok t := by
  have := load_lt hl
  rw [load_eq_ok] at hl ⊢
  rw [List.getElem?_append_left this]; exact hl

theorem chain_nil {h : Heap} {p : Option Nat} : chain h p [] = true ↔ p = none := by
  cases p <;> simp [chain]

theorem chain_cons {h : Heap} {p : Option Nat} {a : Nat} {l : List Nat} :
    chain h p (a :: l) = true ↔
      p = some a ∧ ∃ t, load h a = .ok t ∧ chain h t.next l = true := by
  cases p with
  | none => simp [chain]
  | some b =>
    simp only [chain, Bool.and_eq_true, decide_eq_true_eq, Option.some.injEq]
    constructor
    · rintro ⟨rfl, h2⟩
      refine ⟨rfl, ?_⟩
      cases hb : load h b with
      | ok t => rw [hb] at h2; exact ⟨t, rfl, h2⟩
      | error e => rw [hb] at h2; cases h2
    · rintro ⟨rfl, t, ht, hc⟩
      refine ⟨rfl, ?_⟩
      rw [ht]; exact hc

/-! ## Chains -/

/-- A chain only depends on the cells it passes through. -/
theorem chain_congr {h h' : Heap} {l : List Nat} (hagree : ∀ a ∈ l, load h' a = load h a) :
    ∀ {p : Option Nat}, chain h p l = true → chain h' p l = true := by
  induction l with
  | nil => intro p hp; rw [chain_nil] at hp ⊢; exact hp
  | cons a l ih =>
    intro p hp
    rw [chain_cons] at hp ⊢
    obtain ⟨rfl, t, ht, hc⟩ := hp
    refine ⟨rfl, t, ?_, ih (fun b hb => hagree b (List.mem_cons_of_mem _ hb)) hc⟩
    rw [hagree a (List.mem_cons_self _ _)]; exact ht

theorem chain_store {h : Heap} {l : List Nat} {p : Option Nat} {a : Nat} (t : Task)
    (ha : a ∉ l) (hc : chain h p l = true) : chain (store h a t) p l = true :=
  chain_congr (fun b hb => load_store_ne t (fun e : a = b => ha (by rw [e]; exact hb))) hc

theorem chain_release {h : Heap} {l : List Nat} {p : Option Nat} {a : Nat}
    (ha : a ∉ l) (hc : chain h p l = true) : chain (h.set a none) p l = true :=
  chain_congr (fun b hb => load_set_none_ne (fun e : a = b => ha (by rw [e]; exact hb))) hc

theorem chain_live {h : Heap} : ∀ {l : List Nat} {p : Option Nat}, chain h p l = true →
    ∀ a ∈ l, ∃ t, load h a = .ok t := by
  intro l
  induction l with
  | nil => intro p _ a ha; cases ha
  | cons b l ih =>
    intro p hp a ha
    rw [chain_cons] at hp
    obtain ⟨-, t, ht, hc⟩ := hp
    rcases List.mem_cons.mp ha with rfl | hin
    · exact ⟨t, ht⟩
    · exact ih hc a hin

theorem chain_append_cell {h : Heap} {l : List Nat} {p : Option Nat} (x : Option Task)
    (hc : chain h p l = true) : chain (h ++ [x]) p l = true := by
  refine chain_congr (fun a ha => ?_) hc
  obtain ⟨t, ht⟩ := chain_live hc a ha
  rw [ht]; exact load_append x ht

theorem chain_unique {h : Heap} : ∀ {l l' : List Nat} {p : Option Nat},
    chain h p l = true → chain h p l' = true → l = l' := by
  intro l
  induction l with
  | nil =>
    intro l' p hp hp'
    rw [chain_nil] at hp
    subst hp
    cases l' with
    | nil => rfl
    | cons b l' => simp [chain] at hp'
  | cons a l ih =>
    intro l' p hp hp'
    rw [chain_cons] at hp
    obtain ⟨rfl, t, ht, hc⟩ := hp
    cases l' with
    | nil => simp [chain] at hp'
    | cons b l' =>
      rw [chain_cons] at hp'
      obtain ⟨hb, t', ht', hc'⟩ := hp'
      cases hb
      rw [ht] at ht'
      cases ht'
      rw [ih hc hc']

theorem chain_suffix {h : Heap} : ∀ {l1 : List Nat} {l2 : List Nat} {p : Option Nat},
    chain h p (l1 ++ l2) = true → ∃ p', chain h p' l2 = true := by
  intro l1
  induction l1 with
  | nil => intro l2 p hp; exact ⟨p, hp⟩
  | cons a l1 ih =>
    intro l2 p hp
    rw [List.cons_append, chain_cons] at hp
    obtain ⟨-, t, -, hc⟩ := hp
    exact ih hc

/-- A chain that reaches `NULL` passes through no record twice. -/
theorem chain_nodup {h : Heap} : ∀ {l : List Nat} {p : Option Nat},
    chain h p l = true → l.Nodup := by
  intro l
  induction l with
  | nil => intro _ _; exact List.nodup_nil
  | cons a l ih =>
    intro p hp
    have hp0 := hp
    rw [chain_cons] at hp
    obtain ⟨rfl, t, ht, hc⟩ := hp
    refine List.nodup_cons.mpr ⟨fun hmem => ?_, ih hc⟩
    obtain ⟨l1, l2, rfl⟩ := List.append_of_mem hmem
    obtain ⟨p', hp'⟩ := chain_suffix hc
    have hpa : p' = some a := (chain_cons.mp hp').1
    subst hpa
    have := chain_unique hp0 hp'
    have hlen := congrArg List.length this
    simp at hlen
    omega

/-! ## Enqueueing into a well-formed queue -/

theorem prio_of_load {h : Heap} {a : Nat} {t : Task} (hl : load h a = .ok t) :
    prio h a = t.priority := by
  simp [prio, hl]

/-- The two stores with which `task_enqueue` links `task` behind `current`. -/
theorem task_enqueue_of_walk {fuel : Nat} {h : Heap} {first current task : Nat} {c t : Task}
    (hw : enqueue_walk fuel h first task = .ok current)
    (hc : load h current = .ok c) (ht : load h task = .ok t) (hne : current ≠ task) :
    task_enqueue fuel h (some first) task =
      .ok (store (store h task { t with next := c.next }) current { c with next := some task },
           some first) := by
  simp only [task_enqueue, hw, hc, ht]
  rw [load_store_ne _ (Ne.symm hne), hc]

/-- The walk of `task_enqueue` along a chain: it stops at the record behind which the
new record belongs, and linking the new record there yields the chain with the
new record inserted. -/
theorem enqueue_walk_chain {h : Heap} {task : Nat} {t : Task} (ht : load h task = .ok t) :
    ∀ (r : List Nat) (first : Nat) (fuel : Nat),
      chain h (some first) (first :: r) = true → task ∉ first :: r → r.length < fuel →
      ∃ current c, enqueue_walk fuel h first task = .ok current ∧ current ∈ first :: r ∧
        load h current = .ok c ∧
        chain (store (store h task { t with next := c.next }) current { c with next := some task })
          (some first) (first :: insert_behind (prio h) t.priority task r) = true := by
  intro r
  induction r with
  | nil =>
    intro first fuel hch hnot hfuel
    obtain ⟨fuel, rfl⟩ : ∃ f, fuel = f + 1 := ⟨fuel - 1, by simp at hfuel; omega⟩
    have hch0 := hch
    rw [chain_cons] at hch
    obtain ⟨-, c, hc, hnx⟩ := hch
    rw [chain_nil] at hnx
    have hne : first ≠ task := fun e => hnot (by simp [e])
    refine ⟨first, c, ?_, List.mem_cons_self _ _, hc, ?_⟩
    · simp [enqueue_walk, hc, hnx]
    · simp only [insert_behind]
      rw [chain_cons]
      refine ⟨rfl, _, load_store_same _ (by simpa [store] using load_lt hc), ?_⟩
      rw [chain_cons]
      refine ⟨rfl, { t with next := c.next }, ?_, ?_⟩
      · rw [load_store_ne _ hne]; exact load_store_same _ (load_lt ht)
      · simp [hnx, chain]
  | cons x r ih =>
    intro first fuel hch hnot hfuel
    obtain ⟨fuel, rfl⟩ : ∃ f, fuel = f + 1 := ⟨fuel - 1, by simp at hfuel; omega⟩
    have hnd := chain_nodup hch
    rw [chain_cons] at hch
    obtain ⟨-, c, hc, hnx⟩ := hch
    have hnx0 := hnx
    rw [chain_cons] at hnx
    obtain ⟨hcx, tx, htx, hrest⟩ := hnx
    have hnx1 : chain h (some x) (x :: r) = true := hcx ▸ hnx0
    have hne : first ≠ task := fun e => hnot (by simp [e])
    have hfx : first ∉ x :: r := (List.nodup_cons.mp hnd).1
    have htx' : task ∉ x :: r := fun hm => hnot (List.mem_cons_of_mem _ hm)
    by_cases hp : tx.priority ≥ t.priority
    · obtain ⟨current, c', hw, hmem, hc', hch'⟩ :=
        ih x fuel hnx1 htx' (by simp at hfuel; omega)
      have hcf : current ≠ first := fun e => hfx (e ▸ hmem)
      refine ⟨current, c', ?_, List.mem_cons_of_mem _ hmem, hc', ?_⟩
      · simp [enqueue_walk, hc, hcx, htx, ht, hp, hw]
      · simp only [insert_behind, prio_of_load htx, hp, if_true]
        rw [chain_cons]
        refine ⟨rfl, c, ?_, ?_⟩
        · rw [load_store_ne _ hcf, load_store_ne _ (Ne.symm hne)]; exact hc
        · rw [hcx]; exact hch'
    · refine ⟨first, c, ?_, List.mem_cons_self _ _, hc, ?_⟩
      · simp [enqueue_walk, hc, hcx, htx, ht, hp]
      · simp only [insert_behind, prio_of_load htx, hp, if_false]
        rw [chain_cons]
        refine ⟨rfl, _, load_store_same _ (by simpa [store] using load_lt hc), ?_⟩
        rw [chain_cons]
        refine ⟨rfl, { t with next := c.next }, ?_, ?_⟩
        · rw [load_store_ne _ hne]; exact load_store_same _ (load_lt ht)
        · exact chain_store _ hfx (chain_store _ htx' hnx0)

theorem prio_store {h : Heap} {a : Nat} {t : Task} (t' : Task) (hl : load h a = .ok t)
    (hp : t'.priority = t.priority) (b : Nat) : prio (store h a t') b = prio h b := by
  by_cases hab : a = b
  · subst hab
    simp [prio, load_store_same t' (load_lt hl), hl, hp]
  · simp [prio, load_store_ne t' hab]

theorem state_of_store {h : Heap} {a : Nat} {t : Task} (t' : Task) (hl : load h a = .ok t)
    (hp : t'.state = t.state) (b : Nat) : state_of (store h a t') b = state_of h b := by
  by_cases hab : a = b
  · subst hab
    simp [state_of, load_store_same t' (load_lt hl), hl, hp]
  · simp [state_of, load_store_ne t' hab]

theorem length_store (h : Heap) (a : Nat) (t : Task) : (store h a t).length = h.length := by
  simp [store]

/-- What `task_enqueue` does to a well-formed queue `q` and a live record `task` outside
it: the call returns, the queue becomes `enqueued ... q`, and apart from `next`
links no record changes. -/
theorem task_enqueue_chain {fuel : Nat} {h : Heap} {head : Option Nat} {q : List Nat}
    {task : Nat} {t : Task} (hch : chain h head q = true) (ht : load h task = .ok t)
    (hnot : task ∉ q) (hnx : q = [] → t.next = none) (hfuel : q.length ≤ fuel) :
    ∃ h' head', task_enqueue fuel h head task = .ok (h', head') ∧
      chain h' head' (enqueued (prio h) t.priority task q) = true ∧
      h'.length = h.length ∧ (∀ a, prio h' a = prio h a) ∧
      (∀ a, state_of h' a = state_of h a) ∧
      (∀ a, a ∉ q → a ≠ task → load h' a = load h a) := by
  cases q with
  | nil =>
    rw [chain_nil] at hch
    subst hch
    refine ⟨h, some task, rfl, ?_, rfl, fun _ => rfl, fun _ => rfl, fun _ _ _ => rfl⟩
    simp only [enqueued]
    rw [chain_cons]
    exact ⟨rfl, t, ht, by simp [hnx rfl, chain]⟩
  | cons first r =>
    have hhead : head = some first := (chain_cons.mp hch).1
    subst hhead
    obtain ⟨current, c, hw, hmem, hc, hch'⟩ :=
      enqueue_walk_chain ht r first fuel hch hnot (by simpa using hfuel)
    have hne : current ≠ task := fun e => hnot (e ▸ hmem)
    have hc1 : load (store h task { t with next := c.next }) current = .ok c := by
      rw [load_store_ne _ (Ne.symm hne)]; exact hc
    refine ⟨_, _, task_enqueue_of_walk hw hc ht hne, hch', ?_, ?_, ?_, ?_⟩
    · simp [store]
    · intro a
      exact (prio_store { c with next := some task } hc1 rfl a).trans
        (prio_store { t with next := c.next } ht rfl a)
    · intro a
      exact (state_of_store { c with next := some task } hc1 rfl a).trans
        (state_of_store { t with next := c.next } ht rfl a)
    · intro a haq hat
      have hac : current ≠ a := fun e => haq (e ▸ hmem)
      rw [load_store_ne _ hac, load_store_ne _ (Ne.symm hat)]

theorem insert_behind_const {key : Nat → Nat} {p : Nat} (t : Nat) :
    ∀ r : List Nat, (∀ a ∈ r, key a = p) → insert_behind key p t r = r ++ [t] := by
  intro r
  induction r with
  | nil => intro _; rfl
  | cons x r ih =>
    intro hr
    have hx : key x = p := hr x (List.mem_cons_self _ _)
    simp [insert_behind, hx, ih (fun a ha => hr a (List.mem_cons_of_mem _ ha))]

theorem enqueued_const {key : Nat → Nat} {p : Nat} (t : Nat) (q : List Nat)
    (hq : ∀ a ∈ q, key a = p) : enqueued key p t q = q ++ [t] := by
  cases q with
  | nil => rfl
  | cons a r =>
    simp [enqueued, insert_behind_const t r (fun b hb => hq b (List.mem_cons_of_mem _ hb))]

/-! ## Re-enqueueing the current task -/

theorem mem_insert_behind {key : Nat → Nat} {p t x : Nat} :
    ∀ {r : List Nat}, x ∈ insert_behind key p t r ↔ x = t ∨ x ∈ r := by
  intro r
  induction r with
  | nil => simp [insert_behind]
  | cons y r ih =>
    by_cases hy : key y ≥ p
    · simp only [insert_behind, hy, if_true, List.mem_cons, ih]
      tauto
    · simp only [insert_behind, hy, if_false, List.mem_cons]

theorem mem_enqueued {key : Nat → Nat} {p t x : Nat} {q : List Nat} :
    x ∈ enqueued key p t q ↔ x = t ∨ x ∈ q := by
  cases q with
  | nil => simp [enqueued]
  | cons a r =>
    simp only [enqueued, List.mem_cons, mem_insert_behind]
    tauto

theorem mem_requeued {key : Nat → Nat} {cur : Option Nat} {x : Nat} {r : List Nat} :
    x ∈ requeued key cur r ↔ cur = some x ∨ x ∈ r := by
  cases cur with
  | none => simp [requeued]
  | some c =>
    simp only [requeued, mem_enqueued, Option.some.injEq]
    constructor
    · rintro (rfl | h)
      · exact Or.inl rfl
      · exact Or.inr h
    · rintro (rfl | h)
      · exact Or.inl rfl
      · exact Or.inr h

theorem prio_congr {h h' : Heap} {a : Nat} (e : load h' a = load h a) : prio h' a = prio h a := by
  simp [prio, e]

theorem enqueued_congr {key key' : Nat → Nat} (hk : ∀ a, key' a = key a) (p t : Nat)
    (q : List Nat) : enqueued key' p t q = enqueued key p t q := by
  have : key' = key := funext hk
  rw [this]

/-- The step `requeue_current` on a heap in which `ready` heads the chain `r` and the
current task, if any, is a live record outside `r` with a `NULL` link. -/
theorem requeue_current_chain {fuel : Nat} {h : Heap} {ready : Option Nat} {r : List Nat}
    {cur : Option Nat} (hch : chain h ready r = true)
    (hcur : ∀ c, cur = some c → c ∉ r ∧ ∃ t, load h c = .ok t ∧ t.next = none)
    (hfuel : r.length ≤ fuel) :
    ∃ h' ready', requeue_current fuel h ready cur = .ok (h', ready') ∧
      chain h' ready' (requeued (prio h) cur r) = true ∧
      h'.length = h.length ∧ (∀ a, prio h' a = prio h a) ∧
      (∀ a, cur ≠ some a → state_of h' a = state_of h a) ∧
      (∀ c, cur = some c → state_of h' c = some .TASK_READY) ∧
      (∀ a, a ∉ r → cur ≠ some a → load h' a = load h a) := by
  cases cur with
  | none =>
    exact ⟨h, ready, rfl, hch, rfl, fun _ => rfl, fun _ _ => rfl, fun c hc => (by cases hc),
      fun _ _ _ => rfl⟩
  | some c =>
    obtain ⟨hcr, tc, htc, hnx⟩ := hcur c rfl
    have hlc : load (store h c { tc with state := .TASK_READY }) c =
        .ok { tc with state := .TASK_READY } := load_store_same _ (load_lt htc)
    obtain ⟨h', ready', he, hch', hlen, hprio, hst, hfr⟩ :=
      task_enqueue_chain (chain_store { tc with state := .TASK_READY } hcr hch)
        hlc hcr (fun _ => hnx) hfuel
    have hp : ∀ a, prio (store h c { tc with state := .TASK_READY }) a = prio h a :=
      prio_store { tc with state := .TASK_READY } htc rfl
    refine ⟨h', ready', ?_, ?_, ?_, ?_, ?_, ?_, ?_⟩
    · simp only [requeue_current, htc]; exact he
    · simp only [requeued]
      rw [funext hp] at hch'
      rw [prio_of_load htc]
      exact hch'
    · rw [hlen]; exact length_store _ _ _
    · intro a; rw [hprio, hp]
    · intro a hne
      have hca : c ≠ a := fun e => hne (by rw [e])
      rw [hst]
      simp [state_of, load_store_ne _ hca]
    · intro c' hc'
      cases hc'
      rw [hst]
      simp [state_of, hlc]
    · intro a har hne
      have hca : c ≠ a := fun e => hne (by rw [e])
      rw [hfr a har (Ne.symm hca), load_store_ne _ hca]

/-! ## One dispatch step -/

theorem state_of_congr {h h' : Heap} {a : Nat} (e : load h' a = load h a) :
    state_of h' a = state_of h a := by
  simp [state_of, e]

/-- One call of `rtos_schedule` on a well-formed state whose ready queue is `a :: r`:
the call returns, `a` is dispatched and becomes the running current task, and
the ready queue becomes `r` with the previous current task enqueued. -/
theorem rtos_schedule_step {fuel : Nat} {w : World} {a : Nat} {r : List Nat}
    (hwf : well_formed w (a :: r)) (hfuel : r.length ≤ fuel) :
    ∃ w', rtos_schedule fuel w = .ok w' ∧
      w'.rtos.current_task = some a ∧ w'.rtos.tick = w.rtos.tick ∧ w'.ran = w.ran ++ [a] ∧
      well_formed w' (requeued (prio w.mem) w.rtos.current_task r) ∧
      w'.mem.length = w.mem.length ∧ (∀ x, prio w'.mem x = prio w.mem x) ∧
      state_of w'.mem a = some .TASK_RUNNING ∧
      (∀ c, w.rtos.current_task = some c → state_of w'.mem c = some .TASK_READY) ∧
      (∀ x, x ≠ a → w.rtos.current_task ≠ some x → state_of w'.mem x = state_of w.mem x) := by
  obtain ⟨hch, hcur⟩ := hwf
  have hnd := chain_nodup hch
  have har : a ∉ r := (List.nodup_cons.mp hnd).1
  obtain ⟨hhead, ta, hta, hrest⟩ := chain_cons.mp hch
  have hdq : task_dequeue w.mem w.rtos.ready_list =
      .ok (store w.mem a { ta with next := none }, ta.next, some a) := by
    simp [task_dequeue, hhead, hta]
  have hch1 : chain (store w.mem a { ta with next := none }) ta.next r = true :=
    chain_store _ har hrest
  have hcur1 : ∀ c, w.rtos.current_task = some c →
      c ∉ r ∧ ∃ t, load (store w.mem a { ta with next := none }) c = .ok t ∧ t.next = none := by
    intro c hc
    obtain ⟨hcq, t, ht, hn⟩ := hcur c hc
    have hac : a ≠ c := fun e => hcq (by simp [e])
    exact ⟨fun hm => hcq (List.mem_cons_of_mem _ hm), t, by rw [load_store_ne _ hac]; exact ht, hn⟩
  obtain ⟨h2, ready2, hrq, hch2, hlen2, hprio2, hst2, hrdy2, hfr2⟩ :=
    requeue_current_chain hch1 hcur1 hfuel
  have hca : w.rtos.current_task ≠ some a := fun e => (hcur a e).1 (List.mem_cons_self _ _)
  have hla1 : load (store w.mem a { ta with next := none }) a = .ok { ta with next := none } :=
    load_store_same _ (load_lt hta)
  have hla2 : load h2 a = .ok { ta with next := none } := by
    rw [hfr2 a har hca]; exact hla1
  have hp1 : ∀ x, prio (store w.mem a { ta with next := none }) x = prio w.mem x :=
    prio_store { ta with next := none } hta rfl
  have hs1 : ∀ x, state_of (store w.mem a { ta with next := none }) x = state_of w.mem x :=
    state_of_store { ta with next := none } hta rfl
  have hnotin : a ∉ requeued (prio (store w.mem a { ta with next := none }))
      w.rtos.current_task r := by
    rw [mem_requeued]; rintro (h | h)
    · exact hca h
    · exact har h
  refine ⟨{ mem := store h2 a { ta with next := none, state := .TASK_RUNNING },
            rtos := { current_task := some a, ready_list := ready2, tick := w.rtos.tick },
            ran := w.ran ++ [a] }, ?_, rfl, rfl, rfl, ⟨?_, ?_⟩, ?_, ?_, ?_, ?_, ?_⟩
  · simp only [rtos_schedule, hdq, hrq, hla2]
  · rw [← funext hp1]
    exact chain_store _ hnotin hch2
  · intro c hc
    cases hc
    rw [← funext hp1]
    exact ⟨hnotin, _, load_store_same _ (load_lt hla2), rfl⟩
  · simp only [length_store, hlen2]
  · intro x
    exact ((prio_store { ta with next := none, state := .TASK_RUNNING } hla2 rfl x).trans
      (hprio2 x)).trans (hp1 x)
  · simp [state_of, load_store_same _ (load_lt hla2)]
  · intro c hc
    have hac : a ≠ c := fun e => hca (by rw [hc, e])
    rw [state_of_congr (load_store_ne _ hac), hrdy2 c hc]
  · intro x hxa hcx
    rw [state_of_congr (load_store_ne _ (Ne.symm hxa)), hst2 x hcx, hs1]

/-! ## One task creation -/

theorem insert_behind_congr {key key' : Nat → Nat} (p t : Nat) :
    ∀ r : List Nat, (∀ a ∈ r, key' a = key a) →
      insert_behind key' p t r = insert_behind key p t r := by
  intro r
  induction r with
  | nil => intro _; rfl
  | cons x r ih =>
    intro hr
    simp only [insert_behind, hr x (List.mem_cons_self _ _),
      ih (fun a ha => hr a (List.mem_cons_of_mem _ ha))]

theorem enqueued_congr_mem {key key' : Nat → Nat} (p t : Nat) (q : List Nat)
    (hq : ∀ a ∈ q, key' a = key a) : enqueued key' p t q = enqueued key p t q := by
  cases q with
  | nil => rfl
  | cons a r =>
    simp only [enqueued,
      insert_behind_congr p t r (fun b hb => hq b (List.mem_cons_of_mem _ hb))]

theorem load_append_new (h : Heap) (t : Task) : load (h ++ [some t]) h.length = .ok t := by
  rw [load_eq_ok]; simp

theorem load_append_old {h : Heap} {a : Nat} (x : Option Task) (ha : a < h.length) :
    load (h ++ [x]) a = load h a := by
  simp [load, List.getElem?_append_left ha]

/-- One call of `rtos_task_create` on a well-formed state: the call returns the next
unused address as handle, the new record is enqueued, and nothing else changes. -/
theorem rtos_task_create_step {fuel : Nat} {w : World} {q : List Nat}
    (hwf : well_formed w q) (hfuel : q.length ≤ fuel) (name func arg p : Nat) :
    ∃ w', rtos_task_create fuel w name func arg p = .ok (w', w.mem.length) ∧
      well_formed w' (enqueued (prio w.mem) p w.mem.length q) ∧
      w'.mem.length = w.mem.length + 1 ∧
      w'.rtos.current_task = w.rtos.current_task ∧ w'.rtos.tick = w.rtos.tick ∧
      w'.ran = w.ran ∧ prio w'.mem w.mem.length = p ∧
      state_of w'.mem w.mem.length = some .TASK_READY ∧
      (∀ x, x < w.mem.length → prio w'.mem x = prio w.mem x) ∧
      (∀ x, x < w.mem.length → state_of w'.mem x = state_of w.mem x) := by
  obtain ⟨hch, hcur⟩ := hwf
  have hlt : ∀ a ∈ q, a < w.mem.length := fun a ha => by
    obtain ⟨t, ht⟩ := chain_live hch a ha
    exact load_lt ht
  have hnot : w.mem.length ∉ q := fun hm => Nat.lt_irrefl _ (hlt _ hm)
  obtain ⟨h', head', he, hch', hlen, hprio, hst, hfr⟩ :=
    task_enqueue_chain
      (chain_append_cell
        (some { name := name, func := func, arg := arg, state := .TASK_READY, priority := p, next := none })
        hch)
      (load_append_new w.mem _) hnot (fun _ => rfl) hfuel
  refine ⟨{ w with mem := h', rtos := { w.rtos with ready_list := head' } }, ?_, ⟨?_, ?_⟩, ?_,
    rfl, rfl, rfl, ?_, ?_, ?_, ?_⟩
  · simp only [rtos_task_create, he]
  · rw [← enqueued_congr_mem p w.mem.length q
      (fun a ha => prio_congr (load_append_old _ (hlt a ha)))]
    exact hch'
  · intro c hc
    obtain ⟨hcq, t, ht, hn⟩ := hcur c hc
    have hcl : c ≠ w.mem.length := Nat.ne_of_lt (load_lt ht)
    refine ⟨?_, t, ?_, hn⟩
    · rw [mem_enqueued]; rintro (h | h)
      · exact hcl h
      · exact hcq h
    · show load h' c = .ok t
      rw [hfr c hcq hcl]; exact load_append _ ht
  · simp [hlen]
  · show prio h' w.mem.length = p
    rw [hprio, prio_of_load (load_append_new w.mem _)]
  · show state_of h' w.mem.length = _
    rw [hst]; simp [state_of, load_append_new]
  · intro x hx
    show prio h' x = _
    rw [hprio]; exact prio_congr (load_append_old _ hx)
  · intro x hx
    show state_of h' x = _
    rw [hst]; exact state_of_congr (load_append_old _ hx)

/-! ## Equal priorities: round robin -/

/-- Creating `n` tasks of one priority `p` behind a queue of that priority appends
them in creation order. -/
theorem create_tasks_equal {fuel p : Nat} :
    ∀ (n : Nat) (w : World) (q : List Nat), well_formed w q → (∀ a ∈ q, prio w.mem a = p) →
      q.length + n ≤ fuel →
      ∃ w', create_tasks fuel w (List.replicate n p) = .ok (w', List.range' w.mem.length n) ∧
        well_formed w' (q ++ List.range' w.mem.length n) ∧
        (∀ a ∈ q ++ List.range' w.mem.length n, prio w'.mem a = p) ∧
        w'.rtos.current_task = w.rtos.current_task ∧ w'.ran = w.ran := by
  intro n
  induction n with
  | zero =>
    intro w q hwf hq _
    exact ⟨w, rfl, by simpa using hwf, by simpa using hq, rfl, rfl⟩
  | succ n ih =>
    intro w q hwf hq hfuel
    have hlt : ∀ a ∈ q, a < w.mem.length := fun a ha => by
      obtain ⟨t, ht⟩ := chain_live hwf.1 a ha
      exact load_lt ht
    obtain ⟨w1, hc1, hwf1, hlen1, hcur1, -, hran1, hp1, -, hold1, -⟩ :=
      rtos_task_create_step hwf (by omega : q.length ≤ fuel) 0 0 0 p
    rw [enqueued_const _ _ hq] at hwf1
    have hq1 : ∀ a ∈ q ++ [w.mem.length], prio w1.mem a = p := by
      intro a ha
      rcases List.mem_append.mp ha with h | h
      · rw [hold1 a (hlt a h)]; exact hq a h
      · rw [List.mem_singleton.mp h]; exact hp1
    obtain ⟨w2, hc2, hwf2, hq2, hcur2, hran2⟩ :=
      ih w1 (q ++ [w.mem.length]) hwf1 hq1 (by simp; omega)
    rw [hlen1] at hc2 hwf2 hq2
    have hl : q ++ [w.mem.length] ++ List.range' (w.mem.length + 1) n =
        q ++ List.range' w.mem.length (n + 1) := by
      simp [List.range'_succ]
    rw [hl] at hwf2 hq2
    refine ⟨w2, ?_, hwf2, hq2, hcur2.trans hcur1, hran2.trans hran1⟩
    simp only [List.replicate_succ, create_tasks, hc1, hc2, List.range'_succ]

/-- With `n ≥ 2` records of one priority shared between the ready queue and the
current task, `k` calls of `rtos_schedule` dispatch them cyclically. -/
theorem schedule_times_equal {fuel p n base : Nat} (hn : 2 ≤ n) (hfuel : n ≤ fuel) :
    ∀ (k j : Nat) (w : World) (q : List Nat), well_formed w q →
      q ++ w.rtos.current_task.toList =
        (List.range n).map (fun i => base + (j + i) % n) →
      (∀ a ∈ q ++ w.rtos.current_task.toList, prio w.mem a = p) →
      ∃ w', schedule_times fuel k w = .ok w' ∧
        w'.ran = w.ran ++ (List.range k).map (fun i => base + (j + i) % n) ∧
        (0 < k → w'.rtos.current_task = some (base + (j + (k - 1)) % n)) := by
  intro k
  induction k with
  | zero =>
    intro j w q _ _ _
    exact ⟨w, rfl, by simp, fun h => absurd h (Nat.lt_irrefl 0)⟩
  | succ k ih =>
    intro j w q hwf hS hp
    obtain ⟨m, rfl⟩ : ∃ m, n = m + 1 := ⟨n - 1, by omega⟩
    have hlenS := congrArg List.length hS
    simp only [List.length_append, List.length_map, List.length_range] at hlenS
    have hcl : w.rtos.current_task.toList.length ≤ 1 := by
      cases w.rtos.current_task <;> simp
    cases q with
    | nil => simp at hlenS; omega
    | cons a r =>
      rw [List.range_succ_eq_map, List.map_cons, List.map_map, List.cons_append] at hS
      obtain ⟨ha, hrS⟩ := List.cons.inj hS
      simp only [List.length_cons] at hlenS
      obtain ⟨w1, hs1, hcur1, -, hran1, hwf1, -, hprio1, -, -, -⟩ :=
        rtos_schedule_step hwf (by omega : r.length ≤ fuel)
      have hrq : requeued (prio w.mem) w.rtos.current_task r =
          r ++ w.rtos.current_task.toList := by
        cases hc : w.rtos.current_task with
        | none => simp [requeued]
        | some c =>
          simp only [requeued, Option.toList]
          have hpc : prio w.mem c = p := hp c (by simp [hc])
          rw [hpc]
          exact enqueued_const c r (fun b hb => hp b (by simp [hb]))
      rw [hrq] at hwf1
      have hS1 : (r ++ w.rtos.current_task.toList) ++ w1.rtos.current_task.toList =
          (List.range (m + 1)).map (fun i => base + (j + 1 + i) % (m + 1)) := by
        rw [hcur1, hrS, List.range_succ, List.map_append]
        simp only [Option.toList, List.map_cons, List.map_nil, List.map_inj_left,
          Function.comp_apply]
        congr 1
        · apply List.map_congr_left
          intro i _
          simp only [Function.comp_apply]
          congr 2
          omega
        · rw [ha]
          congr 2
          rw [show j + 1 + m = j + (m + 1) by omega, Nat.add_mod_right]
          simp
      have hp1 : ∀ x ∈ (r ++ w.rtos.current_task.toList) ++ w1.rtos.current_task.toList,
          prio w1.mem x = p := by
        intro x hx
        rw [hprio1]
        apply hp
        rw [hcur1] at hx
        simp only [List.mem_append, Option.toList, List.mem_singleton] at hx
        simp only [List.mem_append, List.mem_cons]
        tauto
      obtain ⟨w2, hs2, hran2, hcur2⟩ := ih (j + 1) w1 _ hwf1 hS1 hp1
      refine ⟨w2, ?_, ?_, ?_⟩
      · simp only [schedule_times, hs1, hs2]
      rotate_left
      · intro _
        rcases Nat.eq_zero_or_pos k with hk | hk
        · subst hk
          simp only [schedule_times, Except.ok.injEq] at hs2
          rw [← hs2, hcur1, ha]
        · rw [hcur2 hk]
          congr 3
          omega
      · rw [hran2, hran1, List.range_succ_eq_map, List.map_cons, List.map_map, ha,
          List.append_assoc, List.singleton_append]
        congr 2
        apply List.map_congr_left
        intro i _
        simp only [Function.comp_apply]
        congr 2
        omega

/-- C10 (as amended): for `n ≥ 2` tasks of one priority created in order after
`rtos_init`, with task bodies that return without rescheduling, the calls of
`rtos_schedule` all return and dispatch the tasks cyclically in creation order:
call number `i + 1` runs the task created at position `i % n`, which is then the
current task. -/
theorem equal_priority_round_robin (w0 : World) (n p fuel k : Nat) (hn : 2 ≤ n)
    (hfuel : n ≤ fuel) :
    ∃ w wk, create_tasks fuel (rtos_init w0) (List.replicate n p) =
          .ok (w, List.range' w0.mem.length n) ∧
      schedule_times fuel k w = .ok wk ∧
      wk.ran = w0.ran ++ (List.range k).map (fun i => w0.mem.length + i % n) ∧
      (0 < k → wk.rtos.current_task = some (w0.mem.length + (k - 1) % n)) := by
  have hwf0 : well_formed (rtos_init w0) [] :=
    ⟨rfl, fun c hc => by cases hc⟩
  obtain ⟨w, hc, hwf, hp, hcur, hran⟩ :=
    create_tasks_equal (p := p) n (rtos_init w0) [] hwf0
      (fun a ha => by cases ha) (by simpa using hfuel)
  have hcur0 : w.rtos.current_task = none := hcur
  have hS : List.range' w0.mem.length n ++ w.rtos.current_task.toList =
      (List.range n).map (fun i => w0.mem.length + (0 + i) % n) := by
    rw [hcur0, Option.toList, List.append_nil, List.range'_eq_map_range]
    apply List.map_congr_left
    intro i hi
    rw [Nat.zero_add, Nat.mod_eq_of_lt (List.mem_range.mp hi)]
  obtain ⟨wk, hs, hrk, hck⟩ :=
    schedule_times_equal (p := p) hn hfuel k 0 w (List.range' w0.mem.length n)
      (by simpa [rtos_init] using hwf) hS
      (by rw [hcur0]; simpa [rtos_init] using hp)
  refine ⟨w, wk, hc, hs, ?_, ?_⟩
  · rw [hrk, hran]
    simp [rtos_init]
  · intro hk
    rw [hck hk, Nat.zero_add]

/-- The round robin of C10 for two tasks of priority 7 and three calls. -/
theorem equal_priority_round_robin_witness :
    ∃ w wk, create_tasks 2 (rtos_init boot) (List.replicate 2 7) =
          .ok (w, List.range' boot.mem.length 2) ∧
      schedule_times 2 3 w = .ok wk ∧
      wk.ran = boot.ran ++ (List.range 3).map (fun i => boot.mem.length + i % 2) ∧
      (0 < 3 → wk.rtos.current_task = some (boot.mem.length + (3 - 1) % 2)) :=
  equal_priority_round_robin boot 2 7 2 3 (by decide) (by decide)

/-- C10 (the claim as stated fails for `n = 1`): with a single task the first call of
`rtos_schedule` dispatches it, and the second call finds the ready queue empty
and returns without dispatching anything, the state being unchanged. -/
theorem single_task_second_call_idle :
    ∃ w w1, create_tasks 1 (rtos_init boot) (List.replicate 1 7) = .ok (w, [0]) ∧
      rtos_schedule 1 w = .ok w1 ∧ w1.ran = [0] ∧
      rtos_schedule 1 w1 = .ok w1 ∧
      ∃ w2, schedule_times 1 2 w = .ok w2 ∧ w2.ran ≠ [0, 0] :=
  ⟨_, _, rfl, rfl, rfl, rfl, _, rfl, by decide⟩

/-! ## Where the walks stop -/

/-- The walk of `task_enqueue` along a chain returns, and stops at `stop_at`. -/
theorem enqueue_walk_stop {h : Heap} {task : Nat} {t : Task} (ht : load h task = .ok t) :
    ∀ (r : List Nat) (first : Nat) (fuel : Nat),
      chain h (some first) (first :: r) = true → r.length < fuel →
      enqueue_walk fuel h first task = .ok (stop_at (prio h) t.priority first r) := by
  intro r
  induction r with
  | nil =>
    intro first fuel hch hfuel
    obtain ⟨fuel, rfl⟩ : ∃ f, fuel = f + 1 := ⟨fuel - 1, by simp at hfuel; omega⟩
    obtain ⟨-, c, hc, hnx⟩ := chain_cons.mp hch
    rw [chain_nil] at hnx
    simp [enqueue_walk, hc, hnx, stop_at]
  | cons x r ih =>
    intro first fuel hch hfuel
    obtain ⟨fuel, rfl⟩ : ∃ f, fuel = f + 1 := ⟨fuel - 1, by simp at hfuel; omega⟩
    obtain ⟨-, c, hc, hnx⟩ := chain_cons.mp hch
    obtain ⟨hcx, tx, htx, -⟩ := chain_cons.mp hnx
    have hnx1 : chain h (some x) (x :: r) = true := hcx ▸ hnx
    by_cases hp : tx.priority ≥ t.priority
    · simp [enqueue_walk, hc, hcx, htx, ht, hp, stop_at, prio_of_load htx,
        ih x fuel hnx1 (by simp at hfuel; omega)]
    · simp [enqueue_walk, hc, hcx, htx, ht, hp, stop_at, prio_of_load htx]

theorem stop_at_mem {key : Nat → Nat} {p : Nat} :
    ∀ (r : List Nat) (first : Nat), stop_at key p first r ∈ first :: r := by
  intro r
  induction r with
  | nil => intro first; simp [stop_at]
  | cons x r ih =>
    intro first
    by_cases hp : key x ≥ p
    · simp only [stop_at, hp, if_true]
      exact List.mem_cons_of_mem _ (ih x)
    · simp [stop_at, hp]

theorem stop_at_congr {key key' : Nat → Nat} (p : Nat) :
    ∀ (r : List Nat) (first : Nat), (∀ a ∈ r, key' a = key a) →
      stop_at key' p first r = stop_at key p first r := by
  intro r
  induction r with
  | nil => intro _ _; rfl
  | cons x r ih =>
    intro first hr
    simp only [stop_at, hr x (List.mem_cons_self _ _),
      ih x (fun a ha => hr a (List.mem_cons_of_mem _ ha))]

/-- The loop of `rtos_task_delete` on a chain that does not contain `task`: it runs to
the end of the chain and changes nothing. -/
theorem delete_walk_absent {h : Heap} {ready : Option Nat} {task : Nat} :
    ∀ (l : List Nat) (p : Option Nat) (loc : Loc) (fuel : Nat),
      chain h p l = true → task ∉ l → read_loc h ready loc = .ok p → l.length < fuel →
      delete_walk fuel h ready loc task = .ok (h, ready) := by
  intro l
  induction l with
  | nil =>
    intro p loc fuel hch _ hrd hfuel
    obtain ⟨fuel, rfl⟩ : ∃ f, fuel = f + 1 := ⟨fuel - 1, by simp at hfuel; omega⟩
    rw [chain_nil] at hch
    subst hch
    simp [delete_walk, hrd]
  | cons a l ih =>
    intro p loc fuel hch hnot hrd hfuel
    obtain ⟨fuel, rfl⟩ : ∃ f, fuel = f + 1 := ⟨fuel - 1, by simp at hfuel; omega⟩
    obtain ⟨rfl, t, ht, hrest⟩ := chain_cons.mp hch
    have hne : a ≠ task := fun e => hnot (by simp [e])
    have hnot' : task ∉ l := fun hm => hnot (List.mem_cons_of_mem _ hm)
    have hrd' : read_loc h ready (.nextOf a) = .ok t.next := by simp [read_loc, ht]
    simp only [delete_walk, hrd, hne, if_false]
    exact ih t.next (.nextOf a) fuel hrest hnot' hrd' (by simp at hfuel; omega)

/-! ## Deleting a record that is linked nowhere -/
/-- C5 (as amended): for a well-formed ready queue, `rtos_task_delete` of a null handle,
or of a handle to a live record that is neither in the ready queue nor the
current task, returns normally and leaves the ready queue (contents and order),
`current_task`, `tick` and every other record unchanged; for the live handle the
record's storage is released. -/
theorem delete_absent_keeps_scheduler_state (fuel : Nat) (w : World) (q : List Nat)
    (task : Option Nat) (hch : chain w.mem w.rtos.ready_list q = true)
    (hfuel : q.length < fuel)
    (htask : ∀ t, task = some t →
      (∃ rec, load w.mem t = .ok rec) ∧ t ∉ q ∧ w.rtos.current_task ≠ some t) :
    ∃ w', rtos_task_delete fuel w task = .ok w' ∧
      w'.rtos = w.rtos ∧ w'.ran = w.ran ∧
      chain w'.mem w'.rtos.ready_list q = true ∧
      (task = none → w' = w) ∧
      (∀ a, task ≠ some a → load w'.mem a = load w.mem a) ∧
      (∀ t, task = some t → w'.mem = w.mem.set t none ∧ load w'.mem t = .error .fault) := by
  cases task with
  | none =>
    exact ⟨w, rfl, rfl, rfl, hch, fun _ => rfl, fun _ _ => rfl, fun t ht => (by cases ht)⟩
  | some t =>
    obtain ⟨⟨rec, hrec⟩, htq, -⟩ := htask t rfl
    have hdw : delete_walk fuel w.mem w.rtos.ready_list .head t = .ok (w.mem, w.rtos.ready_list) :=
      delete_walk_absent q w.rtos.ready_list .head fuel hch htq rfl hfuel
    have hfree : rtos_free w.mem t = .ok (w.mem.set t none) := by
      simp [rtos_free, load_eq_ok.mp hrec]
    refine ⟨{ w with mem := w.mem.set t none }, ?_, rfl, rfl, chain_release htq hch,
      fun h => (by cases h), ?_, ?_⟩
    · simp only [rtos_task_delete, hdw, hfree]
    · intro a ha
      exact load_set_none_ne (fun e => ha (by rw [e]))
    · intro t' ht'
      cases ht'
      refine ⟨rfl, ?_⟩
      simp [load, List.getElem?_set_self (load_lt hrec)]

/-- The statement of C5 for the record of `unlinked_example` that is linked nowhere. -/
theorem delete_absent_keeps_scheduler_state_witness :
    ∃ w', rtos_task_delete 2 unlinked_example (some 1) = .ok w' ∧
      w'.rtos = unlinked_example.rtos ∧ w'.ran = unlinked_example.ran ∧
      chain w'.mem w'.rtos.ready_list [0] = true ∧
      ((some 1 : Option Nat) = none → w' = unlinked_example) ∧
      (∀ a, (some 1 : Option Nat) ≠ some a → load w'.mem a = load unlinked_example.mem a) ∧
      (∀ t, (some 1 : Option Nat) = some t →
        w'.mem = unlinked_example.mem.set t none ∧ load w'.mem t = .error .fault) :=
  delete_absent_keeps_scheduler_state 2 unlinked_example [0] (some 1) rfl (by decide)
    (fun t ht => by cases ht; exact ⟨⟨_, rfl⟩, by decide, by decide⟩)

/-- C5 (the claim as stated fails for a handle that was already deleted): after
`rtos_task_delete` of the only task, its handle is neither in the ready queue nor
the current task, and deleting it again releases the same storage a second
time. -/
theorem delete_twice_faults :
    ∃ w w1, create_tasks 1 (rtos_init boot) [1] = .ok (w, [0]) ∧
      rtos_task_delete 2 w (some 0) = .ok w1 ∧
      chain w1.mem w1.rtos.ready_list [] = true ∧ w1.rtos.current_task = none ∧
      ∀ fuel, rtos_task_delete (fuel + 1) w1 (some 0) = .error .fault :=
  ⟨_, _, rfl, rfl, rfl, rfl, fun _ => rfl⟩

/-! ## Dispatch order against the order of the specification -/

theorem store_comm (h : Heap) {a b : Nat} (hab : a ≠ b) (x y : Task) :
    store (store h a x) b y = store (store h b y) a x := by
  simp only [store]
  exact List.set_comm _ _ _ hab

theorem store_store (h : Heap) (a : Nat) (x y : Task) :
    store (store h a x) a y = store h a y := by
  simp [store]

/-- With a single ready record both orders of dispatch give the same state. -/
theorem schedule_agrees_singleton {fuel : Nat} {w : World} {a c : Nat}
    (hwf : well_formed w [a]) (hcur : w.rtos.current_task = some c) (hfuel : 1 ≤ fuel) :
    schedule_requeue_first fuel w = rtos_schedule fuel w := by
  obtain ⟨hch, hc⟩ := hwf
  obtain ⟨hca, tc, htc, hnx⟩ := hc c hcur
  obtain ⟨hhead, ta, hta, hrest⟩ := chain_cons.mp hch
  rw [chain_nil] at hrest
  have hac : a ≠ c := fun e => hca (by simp [e])
  have hla : a < w.mem.length := load_lt hta
  have hlc : c < w.mem.length := load_lt htc
  -- the code
  have h1 : load (store w.mem a { ta with next := none }) c = .ok tc := by
    rw [load_store_ne _ hac]; exact htc
  have h2 : load (store (store w.mem a { ta with next := none }) c
      { tc with state := .TASK_READY }) a = .ok { ta with next := none } := by
    rw [load_store_ne _ (Ne.symm hac)]; exact load_store_same _ hla
  have hcode : rtos_schedule fuel w = .ok
      { mem := store (store (store w.mem a { ta with next := none }) c
                { tc with state := .TASK_READY }) a
                { ta with next := none, state := .TASK_RUNNING },
        rtos := { current_task := some a, ready_list := some c, tick := w.rtos.tick },
        ran := w.ran ++ [a] } := by
    simp only [rtos_schedule, task_dequeue, hhead, hta, hcur, requeue_current, h1, hrest,
      task_enqueue, h2]
  -- the order of the specification
  have hsa : load (store w.mem c { tc with state := .TASK_READY }) a = .ok ta := by
    rw [load_store_ne _ (Ne.symm hac)]; exact hta
  have hsc : load (store w.mem c { tc with state := .TASK_READY }) c =
      .ok { tc with state := .TASK_READY } := load_store_same _ hlc
  have hchs : chain (store w.mem c { tc with state := .TASK_READY }) (some a) [a] = true := by
    have := chain_store { tc with state := .TASK_READY } hca hch
    rwa [hhead] at this
  have hwalk := enqueue_walk_stop hsc [] a fuel hchs (by simpa using hfuel)
  simp only [stop_at] at hwalk
  have henq := task_enqueue_of_walk hwalk hsa hsc hac
  have h3 : load (store (store (store w.mem c { tc with state := .TASK_READY }) c
      { tc with state := .TASK_READY, next := ta.next }) a { ta with next := some c }) a =
      .ok { ta with next := some c } := load_store_same _ (by simpa [store] using hla)
  have hspec : schedule_requeue_first fuel w = .ok
      { mem := store (store (store (store (store w.mem c { tc with state := .TASK_READY }) c
                { tc with state := .TASK_READY, next := ta.next }) a { ta with next := some c })
                a { ta with next := none }) a
                { ta with next := none, state := .TASK_RUNNING },
        rtos := { current_task := some a, ready_list := some c, tick := w.rtos.tick },
        ran := w.ran ++ [a] } := by
    simp only [schedule_requeue_first, hcur, hhead, requeue_current, htc, henq, task_dequeue, h3,
      load_store_same, length_store, hla]
  rw [hcode, hspec]
  congr 2
  rw [store_store, store_store, store_store, hrest, ← hnx,
    store_comm _ hac, store_store]

/-- With at least two ready records, the second of priority at least that of the
current task, both orders of dispatch give the same state. -/
theorem schedule_agrees_longer {fuel : Nat} {w : World} {a b c : Nat} {r : List Nat}
    (hwf : well_formed w (a :: b :: r)) (hcur : w.rtos.current_task = some c)
    (hfuel : r.length + 2 ≤ fuel) (hsecond : prio w.mem c ≤ prio w.mem b) :
    schedule_requeue_first fuel w = rtos_schedule fuel w := by
  obtain ⟨hch, hc⟩ := hwf
  obtain ⟨hca, tc, htc, hnx⟩ := hc c hcur
  have hnd := chain_nodup hch
  obtain ⟨hhead, ta, hta, hrest⟩ := chain_cons.mp hch
  obtain ⟨hab, tb, htb, -⟩ := chain_cons.mp hrest
  have hrest1 : chain w.mem (some b) (b :: r) = true := hab ▸ hrest
  have hac : a ≠ c := fun e => hca (by simp [e])
  have hcr : c ∉ b :: r := fun hm => hca (List.mem_cons_of_mem _ hm)
  have har : a ∉ b :: r := (List.nodup_cons.mp hnd).1
  have hla : a < w.mem.length := load_lt hta
  have hlc : c < w.mem.length := load_lt htc
  have hpc : prio w.mem c = tc.priority := prio_of_load htc
  -- the record at which both walks stop
  obtain ⟨k, hk⟩ : ∃ k, k = stop_at (prio w.mem) tc.priority b r := ⟨_, rfl⟩
  have hkm : k ∈ b :: r := hk ▸ stop_at_mem r b
  obtain ⟨tk, htk⟩ := chain_live hrest1 k hkm
  have hka : k ≠ a := fun e => har (e ▸ hkm)
  have hkc : k ≠ c := fun e => hcr (e ▸ hkm)
  -- the code
  have h1 : load (store w.mem a { ta with next := none }) c = .ok tc := by
    rw [load_store_ne _ hac]; exact htc
  have hc1c : load (store (store w.mem a { ta with next := none }) c
      { tc with state := .TASK_READY }) c = .ok { tc with state := .TASK_READY } :=
    load_store_same _ (by simpa [store] using hlc)
  have hc1k : load (store (store w.mem a { ta with next := none }) c
      { tc with state := .TASK_READY }) k = .ok tk := by
    rw [load_store_ne _ (Ne.symm hkc), load_store_ne _ (Ne.symm hka)]; exact htk
  have hch1 : chain (store (store w.mem a { ta with next := none }) c
      { tc with state := .TASK_READY }) (some b) (b :: r) = true :=
    chain_store _ hcr (chain_store _ har hrest1)
  have hp1 : ∀ x, prio (store (store w.mem a { ta with next := none }) c
      { tc with state := .TASK_READY }) x = prio w.mem x := fun x =>
    (prio_store { tc with state := .TASK_READY } h1 rfl x).trans
      (prio_store { ta with next := none } hta rfl x)
  have hwalk1 := enqueue_walk_stop hc1c r b fuel hch1 (by omega)
  rw [funext hp1] at hwalk1
  simp only [← hk] at hwalk1
  have henq1 := task_enqueue_of_walk hwalk1 hc1k hc1c hkc
  have h2 : load (store (store (store (store w.mem a { ta with next := none }) c
      { tc with state := .TASK_READY }) c { tc with state := .TASK_READY, next := tk.next }) k
      { tk with next := some c }) a = .ok { ta with next := none } := by
    rw [load_store_ne _ hka, load_store_ne _ (Ne.symm hac), load_store_ne _ (Ne.symm hac)]
    exact load_store_same _ hla
  have hcode : rtos_schedule fuel w = .ok
      { mem := store (store (store (store (store w.mem a { ta with next := none }) c
                { tc with state := .TASK_READY }) c
                { tc with state := .TASK_READY, next := tk.next }) k { tk with next := some c }) a
                { ta with next := none, state := .TASK_RUNNING },
        rtos := { current_task := some a, ready_list := some b, tick := w.rtos.tick },
        ran := w.ran ++ [a] } := by
    simp only [rtos_schedule, task_dequeue, hhead, hta, hcur, requeue_current, h1, hab, henq1, h2]
  -- the order of the specification
  have hsa : load (store w.mem c { tc with state := .TASK_READY }) a = .ok ta := by
    rw [load_store_ne _ (Ne.symm hac)]; exact hta
  have hsc : load (store w.mem c { tc with state := .TASK_READY }) c =
      .ok { tc with state := .TASK_READY } := load_store_same _ hlc
  have hsk : load (store w.mem c { tc with state := .TASK_READY }) k = .ok tk := by
    rw [load_store_ne _ (Ne.symm hkc)]; exact htk
  have hchs : chain (store w.mem c { tc with state := .TASK_READY }) (some a) (a :: b :: r)
      = true := by
    have := chain_store { tc with state := .TASK_READY } hca hch
    rwa [hhead] at this
  have hps : ∀ x, prio (store w.mem c { tc with state := .TASK_READY }) x = prio w.mem x :=
    prio_store { tc with state := .TASK_READY } htc rfl
  have hwalk2 := enqueue_walk_stop hsc (b :: r) a fuel hchs (by simp; omega)
  rw [funext hps] at hwalk2
  have hge : prio w.mem b ≥ tc.priority := by rw [← hpc]; exact hsecond
  simp only [stop_at, hge, if_true, ← hk] at hwalk2
  have henq2 := task_enqueue_of_walk hwalk2 hsk hsc hkc
  have h3 : load (store (store (store w.mem c { tc with state := .TASK_READY }) c
      { tc with state := .TASK_READY, next := tk.next }) k { tk with next := some c }) a =
      .ok ta := by
    rw [load_store_ne _ hka, load_store_ne _ (Ne.symm hac)]; exact hsa
  have hspec : schedule_requeue_first fuel w = .ok
      { mem := store (store (store (store (store w.mem c { tc with state := .TASK_READY }) c
                { tc with state := .TASK_READY, next := tk.next }) k { tk with next := some c })
                a { ta with next := none }) a
                { ta with next := none, state := .TASK_RUNNING },
        rtos := { current_task := some a, ready_list := some b, tick := w.rtos.tick },
        ran := w.ran ++ [a] } := by
    simp only [schedule_requeue_first, hcur, hhead, requeue_current, htc, henq2, task_dequeue, h3,
      load_store_same, length_store, hla, hab]
  rw [hcode, hspec]
  congr 2
  rw [store_store, store_store, store_store, store_comm w.mem hac, store_comm _ hka.symm,
    store_store]

/-- C9 (as amended): for a well-formed state with a current task `c` and a non-empty
ready queue `a :: r` whose second record, if there is one, has priority at least
that of `c`, `rtos_schedule` returns, and returns the very state obtained by
re-enqueueing `c` (state `TASK_READY`) first and popping the head afterwards:
`a` is selected and the ready queue left is `r` with `c` enqueued. -/
theorem schedule_matches_requeue_first (fuel : Nat) (w : World) (a c : Nat) (r : List Nat)
    (hwf : well_formed w (a :: r)) (hcur : w.rtos.current_task = some c)
    (hfuel : r.length + 1 ≤ fuel)
    (hsecond : ∀ b, r.head? = some b → prio w.mem c ≤ prio w.mem b) :
    ∃ w', rtos_schedule fuel w = .ok w' ∧ schedule_requeue_first fuel w = .ok w' ∧
      w'.rtos.current_task = some a ∧ state_of w'.mem c = some .TASK_READY ∧
      chain w'.mem w'.rtos.ready_list (enqueued (prio w.mem) (prio w.mem c) c r) = true := by
  obtain ⟨w', hs, hc', -, -, hwf', -, -, -, hrdy, -⟩ :=
    rtos_schedule_step hwf (by omega : r.length ≤ fuel)
  have hagree : schedule_requeue_first fuel w = rtos_schedule fuel w := by
    cases r with
    | nil => exact schedule_agrees_singleton hwf hcur hfuel
    | cons b r =>
      exact schedule_agrees_longer hwf hcur (by simpa using hfuel) (hsecond b rfl)
  refine ⟨w', hs, hagree.trans hs, hc', hrdy c hcur, ?_⟩
  have := hwf'.1
  rwa [hcur] at this

/-- The statement of C9 for `requeue_example`, whose second ready record has the
priority of the current task. -/
theorem schedule_matches_requeue_first_witness :
    ∃ w', rtos_schedule 2 requeue_example = .ok w' ∧
      schedule_requeue_first 2 requeue_example = .ok w' ∧
      w'.rtos.current_task = some 1 ∧ state_of w'.mem 0 = some .TASK_READY ∧
      chain w'.mem w'.rtos.ready_list
        (enqueued (prio requeue_example.mem) (prio requeue_example.mem 0) 0 [2]) = true :=
  schedule_matches_requeue_first 2 requeue_example 1 0 [2]
    ⟨rfl, fun c hc => by cases hc; exact ⟨by decide, _, rfl, rfl⟩⟩ rfl (by decide)
    (fun b hb => by cases hb; decide)

/-- C9 (the claim as stated fails): (1) with current task 0 of priority 5 and ready
queue `[1, 2]` of priorities 9 and 1, `rtos_schedule` leaves the ready queue
`[2, 0]`, while re-enqueueing first and popping afterwards leaves `[0, 2]`;
(2) with a current task and an empty ready queue `rtos_schedule` selects nothing
and changes nothing, while re-enqueueing first selects the current task again. -/
theorem schedule_differs_from_requeue_first :
    (∃ w0 w wc ws, create_tasks 3 (rtos_init boot) [5, 9, 1] = .ok (w0, [0, 1, 2]) ∧
      rtos_schedule 3 w0 = .ok w ∧ w.rtos.current_task = some 0 ∧
      chain w.mem w.rtos.ready_list [1, 2] = true ∧
      rtos_schedule 3 w = .ok wc ∧ schedule_requeue_first 3 w = .ok ws ∧
      chain wc.mem wc.rtos.ready_list [2, 0] = true ∧
      chain ws.mem ws.rtos.ready_list [0, 2] = true ∧ wc ≠ ws) ∧
    (∃ w0 w ws, create_tasks 1 (rtos_init boot) [5] = .ok (w0, [0]) ∧
      rtos_schedule 1 w0 = .ok w ∧ w.rtos.current_task = some 0 ∧
      w.rtos.ready_list = none ∧
      rtos_schedule 1 w = .ok w ∧ schedule_requeue_first 1 w = .ok ws ∧
      w.ran = [0] ∧ ws.ran = [0, 0]) :=
  ⟨⟨_, _, _, _, rfl, rfl, rfl, rfl, rfl, rfl, rfl, rfl, by decide⟩,
   ⟨_, _, _, rfl, rfl, rfl, rfl, rfl, rfl, rfl, rfl⟩⟩

/-! ## Scenarios of the task system -/
/-- C1 (the code at the failing input): the three `rtos_task_create` calls of `main`,
with the distinct priorities 1, 3, 2, leave the ready queue in creation order,
and three successive `task_dequeue` calls return records of priority 1, then 3,
then 2. -/
theorem main_queue_not_by_priority (fuel : Nat) :
    ∃ w hs, create_tasks (fuel + 2) (rtos_init boot) [1, 3, 2] = .ok (w, hs) ∧
      chain w.mem w.rtos.ready_list hs = true ∧
      dequeue_times 3 w.mem w.rtos.ready_list = .ok hs ∧
      hs.map (prio w.mem) = [1, 3, 2] :=
  ⟨_, _, rfl, rfl, rfl, rfl⟩

/-- C2: after `rtos_init`, creating A (priority 3), B (priority 1) and C (priority 2)
in that order and calling `rtos_schedule` three times, each task body returning
without rescheduling, all calls return and the bodies run are those of A, then
C, then B. -/
theorem dispatch_order_A_C_B (fuel : Nat) :
    ∃ w a b c w1 w2 w3,
      create_tasks (fuel + 2) (rtos_init boot) [3, 1, 2] = .ok (w, [a, b, c]) ∧
      rtos_schedule (fuel + 2) w = .ok w1 ∧ w1.rtos.current_task = some a ∧
      rtos_schedule (fuel + 2) w1 = .ok w2 ∧ w2.rtos.current_task = some c ∧
      rtos_schedule (fuel + 2) w2 = .ok w3 ∧ w3.rtos.current_task = some b ∧
      w3.ran = [a, c, b] ∧ [a, b, c].Nodup :=
  ⟨_, 0, 1, 2, _, _, _, rfl, rfl, rfl, rfl, rfl, rfl, rfl, rfl, by decide⟩

/-- C3 (the code at the failing input): with one task created and dispatched, the
state satisfies the ready-queue invariant; `rtos_tick_handler` then returns a
state in which the current task is also the only member of the ready queue and
has state `TASK_RUNNING`, so the invariant holds for no queue.  With two tasks
the ready list it leaves is a record linked to itself, which is no queue at
all. -/
theorem tick_handler_breaks_invariant :
    (∃ w0 w1 w2, create_tasks 1 (rtos_init boot) [1] = .ok (w0, [0]) ∧
      rtos_schedule 1 w0 = .ok w1 ∧ ready_queue_inv w1 [] ∧ well_formed w1 [] ∧
      rtos_tick_handler 1 w1 = .ok w2 ∧
      w2.rtos.current_task = some 0 ∧ chain w2.mem w2.rtos.ready_list [0] = true ∧
      state_of w2.mem 0 = some .TASK_RUNNING ∧ ∀ q, ¬ ready_queue_inv w2 q) ∧
    (∃ w0 w1 w2, create_tasks 2 (rtos_init boot) [1, 1] = .ok (w0, [0, 1]) ∧
      rtos_schedule 2 w0 = .ok w1 ∧ ready_queue_inv w1 [1] ∧ well_formed w1 [1] ∧
      rtos_tick_handler 2 w1 = .ok w2 ∧
      w2.rtos.ready_list = some 0 ∧ (load w2.mem 0).toOption.map (·.next) = some (some 0) ∧
      ∀ q, chain w2.mem w2.rtos.ready_list q = false) := by
  refine ⟨⟨_, _, _, rfl, rfl, ?_, ?_, rfl, rfl, rfl, rfl, ?_⟩,
    ⟨_, _, _, rfl, rfl, ?_, ?_, rfl, rfl, rfl, ?_⟩⟩
  · exact ⟨rfl, List.nodup_nil, fun a ha => (by cases ha), fun c _ => List.not_mem_nil c⟩
  · exact ⟨rfl, fun c hc => by cases hc; exact ⟨by simp, _, rfl, rfl⟩⟩
  · rintro q ⟨hch, -, -, hcur⟩
    have hq : q = [0] := chain_unique hch (show chain _ _ [0] = true from rfl)
    subst hq
    exact hcur 0 rfl (List.mem_singleton.mpr rfl)
  · refine ⟨rfl, by simp, ?_, ?_⟩
    · intro a ha
      rw [List.mem_singleton.mp ha]; rfl
    · intro c hc; cases hc; decide
  · exact ⟨rfl, fun c hc => by cases hc; exact ⟨by decide, _, rfl, rfl⟩⟩
  · intro q
    cases hq : chain _ _ q with
    | false => rfl
    | true =>
      exfalso
      obtain ⟨l1, rfl⟩ : ∃ l, q = 0 :: l := by
        cases q with
        | nil => exact absurd hq (by decide)
        | cons x l =>
          obtain ⟨hx, -⟩ := chain_cons.mp hq
          cases hx
          exact ⟨l, rfl⟩
      obtain ⟨-, t, ht, hrest⟩ := chain_cons.mp hq
      cases ht
      have := congrArg List.length (chain_unique hq hrest)
      simp at this

/-- C4 (the code at the failing input): with task 0 current and task 1 ready,
`rtos_task_delete` of task 0 returns with `rtos.current_task` still pointing at
the released record, and the next `rtos_schedule` dereferences it. -/
theorem delete_current_leaves_it_current :
    ∃ w0 w1 w2, create_tasks 2 (rtos_init boot) [1, 1] = .ok (w0, [0, 1]) ∧
      rtos_schedule 2 w0 = .ok w1 ∧ w1.rtos.current_task = some 0 ∧ well_formed w1 [1] ∧
      rtos_task_delete 2 w1 (some 0) = .ok w2 ∧
      w2.rtos.current_task = some 0 ∧ load w2.mem 0 = .error .fault ∧
      chain w2.mem w2.rtos.ready_list [1] = true ∧
      ∀ fuel, rtos_schedule fuel w2 = .error .fault := by
  refine ⟨_, _, _, rfl, rfl, rfl, ?_, rfl, rfl, rfl, rfl, fun _ => rfl⟩
  exact ⟨rfl, fun c hc => by cases hc; exact ⟨by decide, _, rfl, rfl⟩⟩

/-! ## The batch loop and the publish of the interrupt ring -/

/-- The batch loop runs `((head - tail) - i + 1) / 2` more times from loop counter `i`,
reading consecutive slots and advancing `tail` once per iteration. -/
theorem drain_loop_run (mask head : Nat) (hh : head < 2 ^ 32) :
    ∀ (fuel i tail : Nat) (slots : List Nat), tail < 2 ^ 32 →
      ((head + 2 ^ 32 - tail) % 2 ^ 32 - i + 1) / 2 < fuel →
      drain_loop fuel mask head i tail slots =
        .ok ((tail + ((head + 2 ^ 32 - tail) % 2 ^ 32 - i + 1) / 2) % 2 ^ 32,
             slots ++ (List.range (((head + 2 ^ 32 - tail) % 2 ^ 32 - i + 1) / 2)).map
               (fun k => ((tail + k) % 2 ^ 32) &&& mask)) := by
  intro fuel
  induction fuel with
  | zero => intro i tail slots _ hf; omega
  | succ fuel ih =>
    intro i tail slots ht hf
    by_cases hlt : i < (head + 2 ^ 32 - tail) % 2 ^ 32
    · have hi : (i + 1) % 2 ^ 32 = i + 1 := Nat.mod_eq_of_lt (by omega)
      have ht1 : (tail + 1) % 2 ^ 32 < 2 ^ 32 := Nat.mod_lt _ (by norm_num)
      have hd : (head + 2 ^ 32 - (tail + 1) % 2 ^ 32) % 2 ^ 32 =
          (head + 2 ^ 32 - tail) % 2 ^ 32 - 1 := by omega
      have hm : ((head + 2 ^ 32 - tail) % 2 ^ 32 - i + 1) / 2 =
          ((head + 2 ^ 32 - tail) % 2 ^ 32 - 1 - (i + 1) + 1) / 2 + 1 := by omega
      rw [drain_loop, if_pos hlt, hi, ih (i + 1) _ _ ht1 (by rw [hd]; omega), hd, hm]
      congr 2
      · omega
      · rw [List.range_succ_eq_map, List.map_cons, List.map_map, List.append_assoc,
          List.singleton_append]
        congr 2
        · rw [Nat.add_zero, Nat.mod_eq_of_lt ht]
        · apply List.map_congr_left
          intro k _
          simp only [Function.comp_apply]
          congr 1
          omega
    · have hm : ((head + 2 ^ 32 - tail) % 2 ^ 32 - i + 1) / 2 = 0 := by omega
      rw [drain_loop, if_neg hlt, hm, Nat.add_zero, Nat.mod_eq_of_lt ht]
      simp

/-- C6 (the code at the failing input): on a ring of capacity 4 holding two published
entries (`head = 2`, `tail = 0`), one batch drain reads slot 0 only and stores
`tail = 1`, so one entry stays unread and the ring is not empty. -/
theorem drain_two_pending_reads_one (fuel : Nat) :
    ∃ ring, KernelInterruptWorker_batch (fuel + 2) two_pending = .ok (ring, [0]) ∧
      ring.tail = 1 ∧ ring.head = 2 ∧ ring.tail ≠ ring.head :=
  ⟨_, rfl, rfl, rfl, by decide⟩

/-- Reducing a slot number modulo `2^32` does not change its index under a 32-bit
mask. -/
theorem mod_and_mask (t mask : Nat) (hm : mask < 2 ^ 32) :
    (t % 2 ^ 32) &&& mask = t &&& mask := by
  apply Nat.eq_of_testBit_eq
  intro i
  rw [Nat.testBit_and, Nat.testBit_and, Nat.testBit_mod_two_pow]
  by_cases hi : i < 32
  · simp [hi]
  · have : mask.testBit i = false := by
      apply Nat.testBit_lt_two_pow
      calc mask < 2 ^ 32 := hm
        _ ≤ 2 ^ i := Nat.pow_le_pow_right (by norm_num) (by omega)
    simp [this]

/-- C7: for every ring with `N = head - tail` (modulo `2^32`) the batch drain returns,
reads exactly the slots `(tail + k) & mask` for `k < m` with some `m ≤ N`, in
that order, and stores back `tail + m` (modulo `2^32`); `head`, `mask` and the
entries stay as they were.  So no slot at or beyond the observed `head` is read
and `tail` does not pass `head`. -/
theorem drain_stays_behind_head (fuel : Nat) (ring : UserInterruptRing)
    (hh : ring.head < 2 ^ 32) (ht : ring.tail < 2 ^ 32) (hmask : ring.mask < 2 ^ 32)
    (hfuel : (ring.head + 2 ^ 32 - ring.tail) % 2 ^ 32 < fuel) :
    ∃ m, m ≤ (ring.head + 2 ^ 32 - ring.tail) % 2 ^ 32 ∧
      KernelInterruptWorker_batch fuel ring =
        .ok ({ ring with tail := (ring.tail + m) % 2 ^ 32 },
             (List.range m).map (fun k => (ring.tail + k) &&& ring.mask)) := by
  refine ⟨((ring.head + 2 ^ 32 - ring.tail) % 2 ^ 32 - 0 + 1) / 2, by omega, ?_⟩
  simp only [KernelInterruptWorker_batch]
  rw [drain_loop_run ring.mask ring.head hh fuel 0 ring.tail [] ht (by omega)]
  simp only [List.nil_append, mod_and_mask _ _ hmask]

/-- The statement of C7 for the full ring of capacity 4. -/
theorem drain_stays_behind_head_witness :
    ∃ m, m ≤ (full_ring.head + 2 ^ 32 - full_ring.tail) % 2 ^ 32 ∧
      KernelInterruptWorker_batch 5 full_ring =
        .ok ({ full_ring with tail := (full_ring.tail + m) % 2 ^ 32 },
             (List.range m).map (fun k => (full_ring.tail + k) &&& full_ring.mask)) :=
  drain_stays_behind_head 5 full_ring (by decide) (by decide) (by decide) (by decide)

/-- C8 (as amended): `RegisterInterruptHandler` returns nothing and tests nothing: for
every ring, full or not, it writes the entry with type 1, the handler and the
context into slot `head & mask`, and leaves `tail`, `mask` and every other slot
as they were. -/
theorem register_writes_slot (ring : UserInterruptRing) (irq : Int) (handler ctx : Nat) :
    (RegisterInterruptHandler ring irq handler ctx).requests (ring.head &&& ring.mask) =
        { type := 1, handler_ptr := handler, user_ctx := ctx } ∧
      (∀ j, j ≠ ring.head &&& ring.mask →
        (RegisterInterruptHandler ring irq handler ctx).requests j = ring.requests j) ∧
      (RegisterInterruptHandler ring irq handler ctx).tail = ring.tail ∧
      (RegisterInterruptHandler ring irq handler ctx).mask = ring.mask := by
  refine ⟨by simp [RegisterInterruptHandler], fun j hj => ?_, rfl, rfl⟩
  simp [RegisterInterruptHandler, hj]

/-- C8 (the claim as stated fails): on a full ring of capacity 4 the call overwrites
slot 0, which holds an entry not yet consumed. -/
theorem register_on_full_ring_overwrites :
    full_ring.head - full_ring.tail = full_ring.mask + 1 ∧
      (RegisterInterruptHandler full_ring 7 11 13).requests 0 ≠ full_ring.requests 0 ∧
      (RegisterInterruptHandler full_ring 7 11 13).requests 0 =
        { type := 1, handler_ptr := 11, user_ctx := 13 } := by
  refine ⟨by decide, by decide, by decide⟩

/-! ## Where a new record lands -/

theorem insert_behind_eq (key : Nat → Nat) (p t : Nat) :
    ∀ r : List Nat, insert_behind key p t r =
      r.takeWhile (fun x => decide (p ≤ key x)) ++ t :: r.dropWhile (fun x => decide (p ≤ key x)) := by
  intro r
  induction r with
  | nil => rfl
  | cons x r ih =>
    by_cases hx : key x ≥ p
    · simp [insert_behind, hx, ih, List.takeWhile_cons, List.dropWhile_cons]
    · simp [insert_behind, hx, List.takeWhile_cons, List.dropWhile_cons]

theorem mem_takeWhile_of_sorted (key : Nat → Nat) (p : Nat) :
    ∀ r : List Nat, r.Pairwise (fun x y => key x ≥ key y) →
      ∀ x ∈ r, key x ≥ p → x ∈ r.takeWhile (fun x => decide (p ≤ key x)) := by
  intro r
  induction r with
  | nil => intro _ x hx; cases hx
  | cons y r ih =>
    intro hs x hx hp
    obtain ⟨hy, hr⟩ := List.pairwise_cons.mp hs
    by_cases hyp : key y ≥ p
    · simp only [List.takeWhile_cons, hyp, decide_True, if_true]
      rcases List.mem_cons.mp hx with rfl | hxr
      · exact List.mem_cons_self _ _
      · exact List.mem_cons_of_mem _ (ih hr x hxr hp)
    · exfalso
      rcases List.mem_cons.mp hx with rfl | hxr
      · exact hyp hp
      · exact hyp (Nat.le_trans hp (hy x hxr))

/-- C11: for a ready queue `q` in non-increasing priority order and a live record
`task` outside it (with `next = NULL` when the queue is empty), `task_enqueue`
returns and leaves the queue `l1 ++ task :: l2`, where `l1 ++ l2` is the old
queue in its old order and `l1` holds every record whose priority is at least
that of `task`; so records of higher or equal priority, equal ones included,
precede the new record. -/
theorem enqueue_behind_higher_or_equal (fuel : Nat) (h : Heap) (head : Option Nat)
    (q : List Nat) (task : Nat) (t : Task) (hch : chain h head q = true)
    (ht : load h task = .ok t) (hnot : task ∉ q) (hnx : q = [] → t.next = none)
    (hsorted : q.Pairwise (fun x y => prio h x ≥ prio h y)) (hfuel : q.length ≤ fuel) :
    ∃ h' head' l1 l2, task_enqueue fuel h head task = .ok (h', head') ∧
      chain h' head' (l1 ++ task :: l2) = true ∧ l1 ++ l2 = q ∧
      (∀ x ∈ q, prio h x ≥ t.priority → x ∈ l1) ∧ (∀ a, prio h' a = prio h a) := by
  obtain ⟨h', head', he, hch', -, hprio, -, -⟩ := task_enqueue_chain hch ht hnot hnx hfuel
  cases q with
  | nil =>
    exact ⟨h', head', [], [], he, by simpa [enqueued] using hch', rfl,
      fun x hx => (by cases hx), hprio⟩
  | cons a r =>
    refine ⟨h', head', a :: r.takeWhile (fun x => decide (t.priority ≤ prio h x)),
      r.dropWhile (fun x => decide (t.priority ≤ prio h x)), he, ?_, ?_, ?_, hprio⟩
    · simpa [enqueued, insert_behind_eq] using hch'
    · simp [List.takeWhile_append_dropWhile]
    · intro x hx hp
      rcases List.mem_cons.mp hx with rfl | hxr
      · exact List.mem_cons_self _ _
      · exact List.mem_cons_of_mem _
          (mem_takeWhile_of_sorted (prio h) t.priority r (List.pairwise_cons.mp hsorted).2 x hxr hp)

/-- The statement of C11 for `requeue_example`: record 0 (priority 1) is enqueued
into the queue of priorities 4, 1. -/
theorem enqueue_behind_higher_or_equal_witness :
    ∃ h' head' l1 l2, task_enqueue 2 requeue_example.mem (some 1) 0 = .ok (h', head') ∧
      chain h' head' (l1 ++ 0 :: l2) = true ∧ l1 ++ l2 = [1, 2] ∧
      (∀ x ∈ [1, 2], prio requeue_example.mem x ≥
        (Task.mk 0 0 0 .TASK_RUNNING 1 none).priority → x ∈ l1) ∧
      (∀ a, prio h' a = prio requeue_example.mem a) :=
  enqueue_behind_higher_or_equal 2 requeue_example.mem (some 1) [1, 2] 0
    (Task.mk 0 0 0 .TASK_RUNNING 1 none) rfl rfl (by decide) (fun _ => rfl) (by decide)
    (by decide)

/-- C12: when the ready queue is empty, `rtos_schedule` returns normally with the
state exactly as it was: no body is run, and `current_task`, the ready queue,
`tick` and every record are unchanged. -/
theorem schedule_on_empty_queue_is_idle (fuel : Nat) (w : World)
    (hempty : w.rtos.ready_list = none) : rtos_schedule fuel w = .ok w := by
  simp [rtos_schedule, task_dequeue, hempty]

/-- The statement of C12 for the state right after `rtos_init`. -/
theorem schedule_on_empty_queue_is_idle_witness :
    rtos_schedule 0 (rtos_init boot) = .ok (rtos_init boot) :=
  schedule_on_empty_queue_is_idle 0 (rtos_init boot) rfl

/-- C13: on a ready queue `q`, `task_dequeue` returns the first record of `q` (or
`NULL` when `q` is empty); the returned record has its `next` link cleared, the
queue left is the rest of `q` in the same order, no other record changes, and on
the empty queue nothing changes at all. -/
theorem task_dequeue_pops_head (h : Heap) (head : Option Nat) (q : List Nat)
    (hch : chain h head q = true) :
    ∃ h' head', task_dequeue h head = .ok (h', head', q.head?) ∧
      chain h' head' q.tail = true ∧
      (∀ a, q.head? = some a → ∃ t t', load h a = .ok t ∧ load h' a = .ok t' ∧
        t' = { t with next := none }) ∧
      (∀ x, q.head? ≠ some x → load h' x = load h x) ∧
      (q = [] → h' = h ∧ head' = none) := by
  cases q with
  | nil =>
    rw [chain_nil] at hch
    subst hch
    exact ⟨h, none, rfl, rfl, fun a ha => (by cases ha), fun _ _ => rfl, fun _ => ⟨rfl, rfl⟩⟩
  | cons a r =>
    have hnd := chain_nodup hch
    obtain ⟨rfl, t, ht, hrest⟩ := chain_cons.mp hch
    refine ⟨store h a { t with next := none }, t.next, ?_, ?_, ?_, ?_, fun e => (by cases e)⟩
    · simp [task_dequeue, ht]
    · exact chain_store _ (List.nodup_cons.mp hnd).1 hrest
    · intro b hb
      cases hb
      exact ⟨t, _, ht, load_store_same _ (load_lt ht), rfl⟩
    · intro x hx
      exact load_store_ne _ (fun e => hx (by rw [List.head?_cons, e]))

/-- The statement of C13 for the ready queue `[1, 2]` of `requeue_example`. -/
theorem task_dequeue_pops_head_witness :
    ∃ h' head', task_dequeue requeue_example.mem (some 1) = .ok (h', head', [1, 2].head?) ∧
      chain h' head' [1, 2].tail = true ∧
      (∀ a, [1, 2].head? = some a → ∃ t t', load requeue_example.mem a = .ok t ∧
        load h' a = .ok t' ∧ t' = { t with next := none }) ∧
      (∀ x, [1, 2].head? ≠ some x → load h' x = load requeue_example.mem x) ∧
      ([1, 2] = [] → h' = requeue_example.mem ∧ head' = none) :=
  task_dequeue_pops_head requeue_example.mem (some 1) [1, 2] rfl

/-! ## Conservation of the task set by `rtos_schedule` -/

theorem insert_behind_perm (key : Nat → Nat) (p t : Nat) (r : List Nat) :
    (insert_behind key p t r).Perm (t :: r) := by
  rw [insert_behind_eq]
  refine List.perm_middle.trans ?_
  rw [List.takeWhile_append_dropWhile]

theorem requeued_perm (key : Nat → Nat) (cur : Option Nat) (r : List Nat) :
    (requeued key cur r).Perm (cur.toList ++ r) := by
  cases cur with
  | none => simp [requeued]
  | some c =>
    cases r with
    | nil => simp [requeued, enqueued]
    | cons a r =>
      simp only [requeued, enqueued, Option.toList, List.singleton_append]
      exact ((insert_behind_perm key (key c) c r).cons a).trans (List.Perm.swap c a r)

/-- C18 (as amended): on a well-formed state with ready queue `q`, that is, the ready
list is a chain through `q` that reaches `NULL` (so `q` is duplicate-free) and
the current task, if there is one, is a live record outside `q` whose `next`
link is `NULL`, `rtos_schedule` returns a well-formed state whose ready-queue
records together with its current task are a rearrangement of those before the
call, so no task is lost or duplicated; when `q` is non-empty the new current
task is the old head of `q`, with state `TASK_RUNNING`, and when `q` is empty
nothing changes. -/
theorem schedule_conserves_tasks (fuel : Nat) (w : World) (q : List Nat)
    (hwf : well_formed w q) (hfuel : q.length ≤ fuel) :
    ∃ w' q', rtos_schedule fuel w = .ok w' ∧ well_formed w' q' ∧
      (q' ++ w'.rtos.current_task.toList).Perm (q ++ w.rtos.current_task.toList) ∧
      (∀ a r, q = a :: r →
        w'.rtos.current_task = some a ∧ state_of w'.mem a = some .TASK_RUNNING) ∧
      (q = [] → w' = w) := by
  cases q with
  | nil =>
    have hempty : w.rtos.ready_list = none := chain_nil.mp hwf.1
    refine ⟨w, [], ?_, hwf, List.Perm.refl _, fun a r e => (by cases e), fun _ => rfl⟩
    simp [rtos_schedule, task_dequeue, hempty]
  | cons a r =>
    obtain ⟨w', hs, hcur, -, -, hwf', -, -, hrun, -, -⟩ :=
      rtos_schedule_step hwf (by simp at hfuel; omega : r.length ≤ fuel)
    refine ⟨w', _, hs, hwf', ?_, ?_, fun e => (by cases e)⟩
    · rw [hcur]
      simp only [Option.toList]
      refine ((requeued_perm (prio w.mem) w.rtos.current_task r).append_right [a]).trans ?_
      refine List.perm_append_comm.trans ?_
      simp only [List.singleton_append]
      have hswap : (w.rtos.current_task.toList ++ r).Perm (r ++ w.rtos.current_task.toList) :=
        List.perm_append_comm
      exact hswap.cons a
    · intro a' r' e
      cases e
      exact ⟨hcur, hrun⟩

/-- The statement of C18 for `requeue_example`. -/
theorem schedule_conserves_tasks_witness :
    ∃ w' q', rtos_schedule 2 requeue_example = .ok w' ∧ well_formed w' q' ∧
      (q' ++ w'.rtos.current_task.toList).Perm
        ([1, 2] ++ requeue_example.rtos.current_task.toList) ∧
      (∀ a r, [1, 2] = a :: r →
        w'.rtos.current_task = some a ∧ state_of w'.mem a = some .TASK_RUNNING) ∧
      ([1, 2] = [] → w' = requeue_example) :=
  schedule_conserves_tasks 2 requeue_example [1, 2]
    ⟨rfl, fun c hc => by cases hc; exact ⟨by decide, _, rfl, rfl⟩⟩ (by decide)

/-- C18 (the claim as stated fails): a duplicate-free ready queue that does not
contain the current task is not enough.  (1) After `rtos_task_delete` of the
current task 0 the ready queue is `[1]` and does not contain 0, yet the record
of 0 is released and `rtos_schedule` dereferences it.  (2) In
`stale_link_example` the ready queue is `[1]` and the current task 0 is live
with `next` still pointing at record 1; `rtos_schedule` returns with record 1
as the current task and with the ready queue `[0, 1]`, so record 1 is counted
twice. -/
theorem schedule_without_well_formed_current :
    (∃ w0 w1 w2, create_tasks 2 (rtos_init boot) [1, 1] = .ok (w0, [0, 1]) ∧
      rtos_schedule 2 w0 = .ok w1 ∧ rtos_task_delete 2 w1 (some 0) = .ok w2 ∧
      chain w2.mem w2.rtos.ready_list [1] = true ∧ [1].Nodup ∧
      w2.rtos.current_task = some 0 ∧ 0 ∉ [1] ∧
      ∀ fuel, rtos_schedule fuel w2 = .error .fault) ∧
    (∃ w', chain stale_link_example.mem stale_link_example.rtos.ready_list [1] = true ∧
      [1].Nodup ∧ stale_link_example.rtos.current_task = some 0 ∧ 0 ∉ [1] ∧
      rtos_schedule 1 stale_link_example = .ok w' ∧
      w'.rtos.current_task = some 1 ∧
      chain w'.mem w'.rtos.ready_list [0, 1] = true ∧
      ¬ ([0, 1] ++ w'.rtos.current_task.toList).Perm
          ([1] ++ stale_link_example.rtos.current_task.toList)) :=
  ⟨⟨_, _, _, rfl, rfl, rfl, rfl, by decide, rfl, by decide, fun _ => rfl⟩,
   ⟨_, rfl, by decide, rfl, by decide, rfl, rfl, rfl, by decide⟩⟩

/-! ## Deleting a record of the ready queue -/

/-- The loop of `rtos_task_delete` on a chain `l1 ++ task :: l2` entered at position
`loc`: it returns after unlinking `task`, so that `loc` then heads the chain
`l1 ++ l2`; apart from one `next` link nothing changes. -/
theorem delete_walk_member {h : Heap} {ready : Option Nat} {task : Nat} {l2 : List Nat} :
    ∀ (l1 : List Nat) (p : Option Nat) (loc : Loc) (fuel : Nat),
      chain h p (l1 ++ task :: l2) = true → read_loc h ready loc = .ok p →
      (∀ a, loc = .nextOf a → a ∉ l1 ++ task :: l2) → l1.length < fuel →
      ∃ h' ready' p', delete_walk fuel h ready loc task = .ok (h', ready') ∧
        read_loc h' ready' loc = .ok p' ∧ chain h' p' (l1 ++ l2) = true ∧
        (loc ≠ .head → ready' = ready) ∧
        (∀ x, loc ≠ .nextOf x → x ∉ l1 → load h' x = load h x) ∧
        (∀ x, prio h' x = prio h x) ∧ (∀ x, state_of h' x = state_of h x) := by
  intro l1
  induction l1 with
  | nil =>
    intro p loc fuel hch hrd hloc hfuel
    obtain ⟨fuel, rfl⟩ : ∃ f, fuel = f + 1 := ⟨fuel - 1, by simp at hfuel; omega⟩
    rw [List.nil_append] at hch
    obtain ⟨rfl, tt, htt, hrest⟩ := chain_cons.mp hch
    cases loc with
    | head =>
      refine ⟨h, tt.next, tt.next, ?_, rfl, hrest, fun e => absurd rfl e, fun _ _ _ => rfl,
        fun _ => rfl, fun _ => rfl⟩
      simp [delete_walk, hrd, htt, write_loc]
    | nextOf a =>
      have ha := hloc a rfl
      rw [List.nil_append] at ha
      cases hla : load h a with
      | error e => simp [read_loc, hla] at hrd
      | ok ta =>
        refine ⟨store h a { ta with next := tt.next }, ready, tt.next, ?_, ?_, ?_, fun _ => rfl,
          ?_, prio_store { ta with next := tt.next } hla rfl,
          state_of_store { ta with next := tt.next } hla rfl⟩
        · simp [delete_walk, hrd, htt, write_loc, hla]
        · simp [read_loc, load_store_same _ (load_lt hla)]
        · exact chain_store _ (fun hm => ha (List.mem_cons_of_mem _ hm)) hrest
        · intro x hx _
          exact load_store_ne _ (fun e => hx (by rw [e]))
  | cons b l1 ih =>
    intro p loc fuel hch hrd hloc hfuel
    obtain ⟨fuel, rfl⟩ : ∃ f, fuel = f + 1 := ⟨fuel - 1, by simp at hfuel; omega⟩
    have hnd := chain_nodup hch
    rw [List.cons_append] at hch hnd
    obtain ⟨rfl, tb, htb, hrest⟩ := chain_cons.mp hch
    have hbn : b ∉ l1 ++ task :: l2 := (List.nodup_cons.mp hnd).1
    have hbt : b ≠ task := fun e => hbn (by simp [e])
    have hrd' : read_loc h ready (.nextOf b) = .ok tb.next := by simp [read_loc, htb]
    obtain ⟨h', ready', p', hdw, hrd2, hch2, hready, hfr, hprio, hst⟩ :=
      ih tb.next (.nextOf b) fuel hrest hrd'
        (fun a ha => by cases ha; exact hbn) (by simp at hfuel; omega)
    have hr : ready' = ready := hready (fun e => by cases e)
    subst hr
    obtain ⟨tb', htb', hnx'⟩ : ∃ tb', load h' b = .ok tb' ∧ tb'.next = p' := by
      cases hlb : load h' b with
      | error e => simp [read_loc, hlb] at hrd2
      | ok tb' =>
        refine ⟨tb', rfl, ?_⟩
        simpa [read_loc, hlb] using hrd2
    have hchb : chain h' (some b) (b :: (l1 ++ l2)) = true :=
      chain_cons.mpr ⟨rfl, tb', htb', hnx' ▸ hch2⟩
    refine ⟨h', ready', some b, ?_, ?_, hchb, fun _ => rfl, ?_, hprio, hst⟩
    · simp only [delete_walk, hrd, hbt, if_false]
      exact hdw
    · cases loc with
      | head => simpa [read_loc] using hrd
      | nextOf a =>
        have ha := hloc a rfl
        have hab : a ≠ b := fun e => ha (by simp [e])
        have hal : a ∉ l1 := fun hm => ha (by simp [hm])
        have := hfr a (fun e => hab (by cases e; rfl)) hal
        simpa [read_loc, this] using hrd
    · intro x hx hxl
      have hxb : x ≠ b := fun e => hxl (by simp [e])
      exact hfr x (fun e => hxb (by cases e; rfl)) (fun hm => hxl (List.mem_cons_of_mem _ hm))

/-- C19: when the ready queue `q` contains `t`, `rtos_task_delete(t)` returns and
leaves the ready queue equal to `q` with `t` removed, the other records in their
previous order and with their priority and state; `current_task`, `tick` and the
dispatch trace are unchanged, and the record of `t` is released. -/
theorem delete_member_unlinks (fuel : Nat) (w : World) (q : List Nat) (t : Nat)
    (hch : chain w.mem w.rtos.ready_list q = true) (hmem : t ∈ q) (hfuel : q.length ≤ fuel) :
    ∃ w', rtos_task_delete fuel w (some t) = .ok w' ∧
      chain w'.mem w'.rtos.ready_list (q.erase t) = true ∧ t ∉ q.erase t ∧
      w'.rtos.current_task = w.rtos.current_task ∧ w'.rtos.tick = w.rtos.tick ∧
      w'.ran = w.ran ∧ load w'.mem t = .error .fault ∧
      (∀ x, x ≠ t → prio w'.mem x = prio w.mem x ∧ state_of w'.mem x = state_of w.mem x) := by
  have hnd := chain_nodup hch
  obtain ⟨l1, l2, rfl, hnot⟩ := List.eq_append_cons_of_mem hmem
  have herase : (l1 ++ t :: l2).erase t = l1 ++ l2 := by
    rw [List.erase_append_right _ hnot, List.erase_cons_head]
  have htl : t ∉ l1 ++ l2 := by
    have := List.nodup_middle.mp hnd
    exact (List.nodup_cons.mp this).1
  obtain ⟨h', ready', p', hdw, hrd, hch', -, hfr, hprio, hst⟩ :=
    delete_walk_member l1 w.rtos.ready_list .head fuel hch rfl (fun a ha => by cases ha)
      (by simp at hfuel; omega)
  have hp' : p' = ready' := by simpa [read_loc] using hrd.symm
  subst hp'
  obtain ⟨tt, htt⟩ := chain_live hch t (by simp)
  have hlt : load h' t = .ok tt := by
    rw [hfr t (fun e => by cases e) hnot]; exact htt
  have hfree : rtos_free h' t = .ok (h'.set t none) := by
    simp [rtos_free, load_eq_ok.mp hlt]
  refine ⟨{ w with mem := h'.set t none, rtos := { w.rtos with ready_list := p' } }, ?_, ?_, ?_,
    rfl, rfl, rfl, ?_, ?_⟩
  · simp only [rtos_task_delete, hdw, hfree]
  · rw [herase]; exact chain_release htl hch'
  · rw [herase]; exact htl
  · have hlen : t < h'.length := load_lt hlt
    simp [load, List.getElem?_set_self hlen]
  · intro x hx
    have hl : load (h'.set t none) x = load h' x := load_set_none_ne (Ne.symm hx)
    exact ⟨(prio_congr hl).trans (hprio x), (state_of_congr hl).trans (hst x)⟩

/-- The statement of C19 for the second record of the queue `[1, 2]` of
`requeue_example`. -/
theorem delete_member_unlinks_witness :
    ∃ w', rtos_task_delete 2 requeue_example (some 2) = .ok w' ∧
      chain w'.mem w'.rtos.ready_list ([1, 2].erase 2) = true ∧ 2 ∉ [1, 2].erase 2 ∧
      w'.rtos.current_task = requeue_example.rtos.current_task ∧
      w'.rtos.tick = requeue_example.rtos.tick ∧
      w'.ran = requeue_example.ran ∧ load w'.mem 2 = .error .fault ∧
      (∀ x, x ≠ 2 → prio w'.mem x = prio requeue_example.mem x ∧
        state_of w'.mem x = state_of requeue_example.mem x) :=
  delete_member_unlinks 2 requeue_example [1, 2] 2 rfl (by decide) (by decide)

/-! ## The time-slice loop -/

theorem execute_loop_run (run : Task_t → Task_t) (hrun : ∀ t, run t = t) (task : Task_t) :
    ∀ (fuel : Nat) (time_used : Int) (calls : Nat),
      (task.remainingTimeSlice - time_used).toNat < fuel →
      execute_loop run fuel task time_used calls =
        .ok (task, max time_used task.remainingTimeSlice,
             calls + (task.remainingTimeSlice - time_used).toNat) := by
  intro fuel
  induction fuel with
  | zero => intro _ _ hf; omega
  | succ fuel ih =>
    intro time_used calls hf
    by_cases hlt : time_used < task.remainingTimeSlice
    · rw [execute_loop, if_pos hlt, hrun, ih (time_used + 1) (calls + 1) (by omega)]
      congr 3
      · omega
      · omega
    · rw [execute_loop, if_neg hlt]
      congr 3
      · omega
      · omega

/-- C16: when the body leaves the task record alone, `ExecuteTaskWithTimeSlice`
returns; with a budget `r ≥ 0` it invokes the body exactly `r` times and leaves
`remainingTimeSlice = 0`, with `r ≤ 0` it does not invoke the body and leaves
the record as it was.  In particular a non-negative budget does not become
negative. -/
theorem time_slice_charged_per_run (run : Task_t → Task_t) (hrun : ∀ t, run t = t)
    (fuel : Nat) (task : Task_t) (hfuel : task.remainingTimeSlice.toNat < fuel) :
    (0 ≤ task.remainingTimeSlice →
      ExecuteTaskWithTimeSlice run fuel task =
        .ok ({ task with remainingTimeSlice := 0 }, task.remainingTimeSlice.toNat)) ∧
    (task.remainingTimeSlice ≤ 0 →
      ExecuteTaskWithTimeSlice run fuel task = .ok (task, 0)) := by
  have hloop := execute_loop_run run hrun task fuel 0 0 (by simpa using hfuel)
  constructor
  · intro hr
    simp only [ExecuteTaskWithTimeSlice, hloop]
    congr 3
    · omega
    · simp
  · intro hr
    simp only [ExecuteTaskWithTimeSlice, hloop]
    have h1 : max 0 task.remainingTimeSlice = 0 := by omega
    have h2 : (task.remainingTimeSlice - 0).toNat = 0 := by omega
    rw [h1, h2]
    simp

/-- The statement of C16 for a budget of three ticks. -/
theorem time_slice_charged_per_run_witness :
    (0 ≤ three_ticks.remainingTimeSlice →
      ExecuteTaskWithTimeSlice id 4 three_ticks =
        .ok ({ three_ticks with remainingTimeSlice := 0 },
             three_ticks.remainingTimeSlice.toNat)) ∧
    (three_ticks.remainingTimeSlice ≤ 0 →
      ExecuteTaskWithTimeSlice id 4 three_ticks = .ok (three_ticks, 0)) :=
  time_slice_charged_per_run id (fun _ => rfl) 4 three_ticks (by decide)

/-! ## No limit on the number of tasks -/

theorem enqueued_perm (key : Nat → Nat) (p t : Nat) (q : List Nat) :
    (enqueued key p t q).Perm (t :: q) := by
  cases q with
  | nil => simp [enqueued]
  | cons a r =>
    simp only [enqueued]
    exact ((insert_behind_perm key p t r).cons a).trans (List.Perm.swap t a r)

/-- C14 (as amended): `rtos_task_create` enforces no maximum task count: on every
well-formed state, however many tasks its ready queue `q` holds, the call
(with `rtos_malloc` succeeding) returns a handle to a new record and leaves a
well-formed state whose ready queue is `q` with that record added. -/
theorem create_has_no_task_limit (fuel : Nat) (w : World) (q : List Nat)
    (hwf : well_formed w q) (hfuel : q.length ≤ fuel) (name func arg priority : Nat) :
    ∃ w' q', rtos_task_create fuel w name func arg priority = .ok (w', w.mem.length) ∧
      well_formed w' q' ∧ q'.Perm (w.mem.length :: q) ∧ q'.length = q.length + 1 ∧
      w.mem.length ∉ q ∧ prio w'.mem w.mem.length = priority ∧
      state_of w'.mem w.mem.length = some .TASK_READY := by
  obtain ⟨w', hc, hwf', -, -, -, -, hp, hs, -, -⟩ :=
    rtos_task_create_step hwf hfuel name func arg priority
  have hperm := enqueued_perm (prio w.mem) priority w.mem.length q
  refine ⟨w', _, hc, hwf', hperm, by simpa using hperm.length_eq, ?_, hp, hs⟩
  intro hm
  obtain ⟨t, ht⟩ := chain_live hwf.1 _ hm
  exact Nat.lt_irrefl _ (load_lt ht)

/-- The statement of C14 for `requeue_example`. -/
theorem create_has_no_task_limit_witness :
    ∃ w' q', rtos_task_create 2 requeue_example 0 0 0 9 =
        .ok (w', requeue_example.mem.length) ∧
      well_formed w' q' ∧ q'.Perm (requeue_example.mem.length :: [1, 2]) ∧
      q'.length = [1, 2].length + 1 ∧
      requeue_example.mem.length ∉ [1, 2] ∧
      prio w'.mem requeue_example.mem.length = 9 ∧
      state_of w'.mem requeue_example.mem.length = some .TASK_READY :=
  create_has_no_task_limit 2 requeue_example [1, 2]
    ⟨rfl, fun c hc => by cases hc; exact ⟨by decide, _, rfl, rfl⟩⟩ (by decide) 0 0 0 9

/-- C14 (the claim as stated fails): after `rtos_init`, `MAX_TASKS + 1` calls of
`rtos_task_create` all return a handle, and the ready queue then holds
`MAX_TASKS + 1` distinct live records. -/
theorem more_than_max_tasks_created :
    ∃ w hs, create_tasks 11 (rtos_init boot) (List.replicate (MAX_TASKS + 1) 1) = .ok (w, hs) ∧
      hs.length = MAX_TASKS + 1 ∧ hs.Nodup ∧
      chain w.mem w.rtos.ready_list hs = true :=
  ⟨_, _, rfl, rfl, by decide, rfl⟩

/-! ## The number of iterations of the batch loop -/

/-- C20: for a ring with `N = head - tail` pending entries, `N < 2^31`, one pass of
the batch loop returns after exactly `⌈N/2⌉` iterations: it reads the slots
`(tail + k) & mask` for `k < ⌈N/2⌉`, in that order, and stores back
`tail + ⌈N/2⌉` (modulo `2^32`); the loop counter, which ends at the number of
iterations, stays within the range of `int`. -/
theorem drain_runs_half (fuel : Nat) (ring : UserInterruptRing)
    (hh : ring.head < 2 ^ 32) (ht : ring.tail < 2 ^ 32) (hmask : ring.mask < 2 ^ 32)
    (hN : (ring.head + 2 ^ 32 - ring.tail) % 2 ^ 32 < 2 ^ 31)
    (hfuel : ((ring.head + 2 ^ 32 - ring.tail) % 2 ^ 32 + 1) / 2 < fuel) :
    ∃ slots, KernelInterruptWorker_batch fuel ring =
        .ok ({ ring with
                tail := (ring.tail + ((ring.head + 2 ^ 32 - ring.tail) % 2 ^ 32 + 1) / 2) % 2 ^ 32 },
             slots) ∧
      slots = (List.range (((ring.head + 2 ^ 32 - ring.tail) % 2 ^ 32 + 1) / 2)).map
        (fun k => (ring.tail + k) &&& ring.mask) ∧
      slots.length = ((ring.head + 2 ^ 32 - ring.tail) % 2 ^ 32 + 1) / 2 ∧
      slots.length < 2 ^ 31 := by
  have hrun := drain_loop_run ring.mask ring.head hh fuel 0 ring.tail [] ht
    (by simpa using hfuel)
  simp only [Nat.sub_zero, List.nil_append, mod_and_mask _ _ hmask] at hrun
  refine ⟨_, ?_, rfl, by simp, by simp; omega⟩
  simp only [KernelInterruptWorker_batch, hrun]

/-- The statement of C20 for a ring holding five entries from slot 6 on: three
iterations. -/
theorem drain_runs_half_witness :
    ∃ slots, KernelInterruptWorker_batch 4 five_pending =
        .ok ({ five_pending with
                tail := (five_pending.tail +
                  ((five_pending.head + 2 ^ 32 - five_pending.tail) % 2 ^ 32 + 1) / 2) % 2 ^ 32 },
             slots) ∧
      slots = (List.range
          (((five_pending.head + 2 ^ 32 - five_pending.tail) % 2 ^ 32 + 1) / 2)).map
        (fun k => (five_pending.tail + k) &&& five_pending.mask) ∧
      slots.length = ((five_pending.head + 2 ^ 32 - five_pending.tail) % 2 ^ 32 + 1) / 2 ∧
      slots.length < 2 ^ 31 :=
  drain_runs_half 4 five_pending (by decide) (by decide) (by decide) (by decide) (by decide)

end Rtos
